import Mathlib

/-!
Verification of the Dijkstra shortest-path implementation in `src/main.rs`.

The Rust code works on `HashMap<&str, HashMap<&str, u32>>` graphs.  We embed
the maps as association lists over `String` keys (`findEntry` is `HashMap::get`,
`setEntry` is the write performed by `entry(..).and_modify(..).or_insert_with(..)`;
a fresh key is appended at the end, which fixes one concrete iteration order for
the unordered `HashMap` iteration of the source).  The two tail recursions of the
source (`dijkstra_progression` and `dijkstra_backtrack_recursive`) are embedded
with an explicit fuel parameter; the outer `Option` layer is `none` exactly when
the fuel runs out, and termination of the source recursion is expressed by
theorems showing a concrete fuel suffices (or, for the backtracking function on
cyclic origin maps, that no fuel ever suffices).
-/

set_option maxHeartbeats 1000000

namespace DijkstraRust

/-- Node identifiers: `&str` in the source. -/
abbrev Node := String

/-- Adjacency map of one node: `HashMap<&str, u32>`. -/
abbrev AdjMap := List (Node × Nat)

/-- The graph: `HashMap<&str, HashMap<&str, u32>>`. -/
abbrev Graph := List (Node × AdjMap)

/-- The tentative-distance map `progression : HashMap<&str, u32>`. -/
abbrev DistMap := List (Node × Nat)

/-- The `origin : HashMap<&str, &str>` predecessor map. -/
abbrev OriginMap := List (Node × Node)

/-- The `visited : HashSet<&str>` set, newest element first. -/
abbrev Visited := List Node

/-- `HashMap::get`: the value stored for key `k`, if any. -/
def findEntry {β : Type} : List (Node × β) → Node → Option β
  | [], _ => none
  | (k', v) :: rest, k => if k' = k then some v else findEntry rest k

/-- `HashMap::insert` / the write done by the `entry` API: overwrite the value
of an existing key in place, or append a fresh key at the end. -/
def setEntry {β : Type} : List (Node × β) → Node → β → List (Node × β)
  | [], k, v => [(k, v)]
  | (k', v') :: rest, k, v =>
    if k' = k then (k, v) :: rest else (k', v') :: setEntry rest k v

/-- The keys of a map, in iteration order. -/
def keysOf {β : Type} (m : List (Node × β)) : List Node := m.map Prod.fst

/-- `get_next_node` from `src/main.rs` (lines 144-166): among the entries of
`progression` whose node is not in `visited`, pick one of minimal cost by a
left fold keeping the earlier entry on ties (`first_cost <= second_cost`). -/
def get_next_node (progression : DistMap) (visited : Visited) : Option (Node × Nat) :=
  match progression.filter (fun p => !(visited.contains p.1)) with
  | [] => none
  | p :: ps => some (ps.foldl (fun best q => if best.2 ≤ q.2 then best else q) p)

/-- One edge relaxation: the body of the `for (node, cost)` loop of
`dijkstra_progression` (lines 109-131).  `next_node` is the node being
expanded and `current` its tentative distance. -/
def relaxEdge (next_node : Node) (current : Nat) (st : DistMap × OriginMap)
    (edge : Node × Nat) : DistMap × OriginMap :=
  match findEntry st.1 edge.1 with
  | some old =>
    if old > current + edge.2 then
      (setEntry st.1 edge.1 (current + edge.2), setEntry st.2 edge.1 next_node)
    else
      st
  | none =>
    (setEntry st.1 edge.1 (current + edge.2), setEntry st.2 edge.1 next_node)

/-- The whole `for` loop of `dijkstra_progression` over the adjacency list of
the expanded node. -/
def relaxAll (adj : AdjMap) (next_node : Node) (current : Nat)
    (progression : DistMap) (origin : OriginMap) : DistMap × OriginMap :=
  adj.foldl (relaxEdge next_node current) (progression, origin)

/-- `dijkstra_progression` (lines 89-139), with fuel for the tail recursion.
The result carries the final values of the three `&mut` arguments together
with the `Option<&str>` return value of the Rust function; the outer `Option`
is `none` only when the fuel is exhausted. -/
def dijkstra_progression :
    Nat → Graph → DistMap → OriginMap → Visited → Node →
      Option (DistMap × OriginMap × Visited × Option Node)
  | 0, _, _, _, _, _ => none
  | fuel + 1, graph, progression, origin, visited, destination =>
    match get_next_node progression visited with
    | none => some (progression, origin, visited, none)
    | some (next_node, current_progression) =>
      if next_node = destination then
        some (progression, origin, visited, some destination)
      else
        let st := relaxAll ((findEntry graph next_node).getD []) next_node
          current_progression progression origin
        dijkstra_progression fuel graph st.1 st.2 (next_node :: visited) destination

/-- `dijkstra_backtrack_recursive` (lines 187-209), with fuel for the tail
recursion.  The outer `Option` is `none` only when the fuel is exhausted;
the inner `Option` is the Rust return value. -/
def dijkstra_backtrack_recursive :
    Nat → OriginMap → Node → Node → List Node → Option (Option (List Node))
  | 0, _, _, _, _ => none
  | fuel + 1, origin, source, location, path =>
    if location = source then
      some (some (path ++ [source]))
    else
      match findEntry origin location with
      | none => some none
      | some origin_node =>
        dijkstra_backtrack_recursive fuel origin source origin_node (path ++ [location])

/-- `dijkstra_backtrack` (lines 170-183): run the recursion from the
destination with an empty path buffer and reverse the result. -/
def dijkstra_backtrack (fuel : Nat) (origin : OriginMap) (source destination : Node) :
    Option (Option (List Node)) :=
  match dijkstra_backtrack_recursive fuel origin source destination [] with
  | none => none
  | some none => some none
  | some (some l) => some (some l.reverse)

/-- All node identifiers that can ever appear as a key of the progression map:
the source plus every key and every adjacency target of the graph. -/
def allNodes (graph : Graph) (source : Node) : List Node :=
  source :: (graph.map Prod.fst ++ (graph.map (fun e => e.2.map Prod.fst)).flatten)

/-- `dijkstra` (lines 57-83): initialize `progression` with the source at
distance 0, run the progression, and on success backtrack through the origin
map.  The fuel bounds are sufficient for the source's recursions (proved
below), so the outer `Option` layer is never `none`; the inner `Option` is
the Rust `Option<Vec<&str>>` result. -/
def dijkstra (graph : Graph) (source destination : Node) : Option (Option (List Node)) :=
  match dijkstra_progression ((allNodes graph source).length + 1) graph
      [(source, 0)] [] [] destination with
  | none => none
  | some (_, origin, _, none) => some none
  | some (_, origin, _, some _) =>
    dijkstra_backtrack (origin.length + 2) origin source destination

/-! ## Path semantics of the graph (specification side)

These definitions pin down what "a path in the graph" and "its total weight"
mean; claims about minimality and validity are stated against them. -/

/-- The weight of the edge from `u` to `v`, read off the adjacency mapping. -/
def edgeWeight (graph : Graph) (u v : Node) : Option Nat :=
  match findEntry graph u with
  | none => none
  | some adj => findEntry adj v

/-- Total weight of a node sequence: `some` of the sum of the edge weights of
consecutive pairs when every such edge exists, `none` otherwise (and for the
empty sequence, which is not a path). -/
def pathCost (graph : Graph) : List Node → Option Nat
  | [] => none
  | [_] => some 0
  | u :: v :: rest =>
    match edgeWeight graph u v, pathCost graph (v :: rest) with
    | some w, some c => some (w + c)
    | _, _ => none

/-- `p` is a path of `graph` leading from `s` to `d`. -/
def IsPathFrom (graph : Graph) (s d : Node) (p : List Node) : Prop :=
  p.head? = some s ∧ p.getLast? = some d ∧ (pathCost graph p).isSome

/-- Well-formed graph: the image of the Rust `HashMap` type, where neither the
graph nor any adjacency map can repeat a key. -/
def WFGraph (graph : Graph) : Prop :=
  (keysOf graph).Nodup ∧ ∀ e ∈ graph, (keysOf e.2).Nodup

instance : DecidablePred WFGraph := fun _ =>
  inferInstanceAs (Decidable (_ ∧ _))

/-! ## Association list lemmas -/

@[simp] theorem keysOf_nil {β : Type} : keysOf ([] : List (Node × β)) = [] := rfl

@[simp] theorem keysOf_cons {β : Type} (e : Node × β) (m : List (Node × β)) :
    keysOf (e :: m) = e.1 :: keysOf m := rfl

@[simp] theorem findEntry_nil {β : Type} (k : Node) :
    findEntry ([] : List (Node × β)) k = none := rfl

theorem findEntry_cons {β : Type} (k' k : Node) (v' : β) (m : List (Node × β)) :
    findEntry ((k', v') :: m) k = if k' = k then some v' else findEntry m k := rfl

theorem setEntry_cons {β : Type} (k' k : Node) (v' v : β) (m : List (Node × β)) :
    setEntry ((k', v') :: m) k v =
      if k' = k then (k, v) :: m else (k', v') :: setEntry m k v := rfl

theorem findEntry_setEntry_self {β : Type} (m : List (Node × β)) (k : Node) (v : β) :
    findEntry (setEntry m k v) k = some v := by
  induction m with
  | nil => simp [setEntry, findEntry]
  | cons e rest ih =>
    obtain ⟨k', v'⟩ := e
    rw [setEntry_cons]
    by_cases h : k' = k
    · rw [if_pos h, findEntry_cons, if_pos rfl]
    · rw [if_neg h, findEntry_cons, if_neg h, ih]

theorem findEntry_setEntry_ne {β : Type} (m : List (Node × β)) (k x : Node) (v : β)
    (h : x ≠ k) : findEntry (setEntry m k v) x = findEntry m x := by
  have hk : ¬(k = x) := fun he => h he.symm
  induction m with
  | nil => simp [setEntry, findEntry, hk]
  | cons e rest ih =>
    obtain ⟨k', v'⟩ := e
    rw [setEntry_cons]
    by_cases h1 : k' = k
    · rw [if_pos h1, findEntry_cons, if_neg hk, findEntry_cons, h1, if_neg hk]
    · rw [if_neg h1, findEntry_cons, findEntry_cons, ih]

theorem mem_keysOf_setEntry {β : Type} (m : List (Node × β)) (k x : Node) (v : β)
    (h : x ∈ keysOf (setEntry m k v)) : x ∈ keysOf m ∨ x = k := by
  induction m with
  | nil =>
    simp [setEntry] at h
    right
    exact h
  | cons e rest ih =>
    obtain ⟨k', v'⟩ := e
    rw [setEntry_cons] at h
    by_cases h1 : k' = k
    · rw [if_pos h1] at h
      rw [keysOf_cons] at h
      rcases List.mem_cons.mp h with h2 | h2
      · right; exact h2
      · left; rw [keysOf_cons]; exact List.mem_cons_of_mem _ h2
    · rw [if_neg h1, keysOf_cons] at h
      rcases List.mem_cons.mp h with h2 | h2
      · left; rw [keysOf_cons]; exact h2 ▸ List.mem_cons_self _ _
      · rcases ih h2 with h3 | h3
        · left; rw [keysOf_cons]; exact List.mem_cons_of_mem _ h3
        · right; exact h3

theorem keysOf_setEntry_of_mem {β : Type} (m : List (Node × β)) (k : Node) (v : β)
    (h : k ∈ keysOf m) : keysOf (setEntry m k v) = keysOf m := by
  induction m with
  | nil => simp at h
  | cons e rest ih =>
    obtain ⟨k', v'⟩ := e
    rw [setEntry_cons]
    by_cases h1 : k' = k
    · rw [if_pos h1, keysOf_cons, keysOf_cons, h1]
    · rw [keysOf_cons] at h
      rcases List.mem_cons.mp h with h2 | h2
      · exact absurd h2.symm h1
      · rw [if_neg h1, keysOf_cons, keysOf_cons, ih h2]

theorem keysOf_setEntry_of_not_mem {β : Type} (m : List (Node × β)) (k : Node) (v : β)
    (h : k ∉ keysOf m) : keysOf (setEntry m k v) = keysOf m ++ [k] := by
  induction m with
  | nil => simp [setEntry]
  | cons e rest ih =>
    obtain ⟨k', v'⟩ := e
    rw [keysOf_cons] at h
    have h1 : k' ≠ k := fun he => h (he ▸ List.mem_cons_self _ _)
    have h2 : k ∉ keysOf rest := fun he => h (List.mem_cons_of_mem _ he)
    rw [setEntry_cons, if_neg h1, keysOf_cons, keysOf_cons, ih h2, List.cons_append]

theorem keysOf_setEntry_nodup {β : Type} (m : List (Node × β)) (k : Node) (v : β)
    (h : (keysOf m).Nodup) : (keysOf (setEntry m k v)).Nodup := by
  by_cases hk : k ∈ keysOf m
  · rw [keysOf_setEntry_of_mem m k v hk]; exact h
  · rw [keysOf_setEntry_of_not_mem m k v hk]
    simpa [List.nodup_append] using ⟨h, hk⟩

theorem findEntry_eq_none_iff {β : Type} (m : List (Node × β)) (k : Node) :
    findEntry m k = none ↔ k ∉ keysOf m := by
  induction m with
  | nil => simp
  | cons e rest ih =>
    obtain ⟨k', v'⟩ := e
    rw [findEntry_cons, keysOf_cons]
    by_cases h : k' = k
    · simp [h]
    · have h2 : ¬(k = k') := fun he => h he.symm
      simp [h, ih, h2]

theorem findEntry_isSome_iff {β : Type} (m : List (Node × β)) (k : Node) :
    (findEntry m k).isSome ↔ k ∈ keysOf m := by
  rcases h : findEntry m k with _ | v
  · simp [(findEntry_eq_none_iff m k).mp h]
  · simp only [Option.isSome_some, true_iff]
    by_contra hk
    rw [(findEntry_eq_none_iff m k).mpr hk] at h
    exact Option.noConfusion h

theorem findEntry_mem {β : Type} (m : List (Node × β)) (k : Node) (v : β)
    (h : findEntry m k = some v) : (k, v) ∈ m := by
  induction m with
  | nil => simp at h
  | cons e rest ih =>
    obtain ⟨k', v'⟩ := e
    rw [findEntry_cons] at h
    by_cases h1 : k' = k
    · rw [if_pos h1] at h
      subst h1
      obtain rfl : v' = v := Option.some.inj h
      exact List.mem_cons_self _ _
    · rw [if_neg h1] at h
      exact List.mem_cons_of_mem _ (ih h)

theorem mem_keysOf_of_findEntry {β : Type} (m : List (Node × β)) (k : Node) (v : β)
    (h : findEntry m k = some v) : k ∈ keysOf m := by
  have hm := findEntry_mem m k v h
  exact List.mem_map.mpr ⟨(k, v), hm, rfl⟩

theorem findEntry_of_mem {β : Type} (m : List (Node × β)) (k : Node) (v : β)
    (hnd : (keysOf m).Nodup) (h : (k, v) ∈ m) : findEntry m k = some v := by
  induction m with
  | nil => simp at h
  | cons e rest ih =>
    obtain ⟨k', v'⟩ := e
    rw [keysOf_cons] at hnd
    rcases List.mem_cons.mp h with h1 | h1
    · obtain ⟨rfl, rfl⟩ := Prod.mk.inj (Eq.symm h1)
      rw [findEntry_cons, if_pos rfl]
    · have hk : k ∈ keysOf rest := List.mem_map.mpr ⟨(k, v), h1, rfl⟩
      have h2 : k' ≠ k := by
        intro he
        exact (List.nodup_cons.mp hnd).1 (he ▸ hk)
      rw [findEntry_cons, if_neg h2]
      exact ih (List.nodup_cons.mp hnd).2 h1

/-! ## Lemmas about `get_next_node` -/

theorem minFold_mem (l : List (Node × Nat)) (p : Node × Nat) :
    l.foldl (fun best q => if best.2 ≤ q.2 then best else q) p ∈ p :: l := by
  induction l generalizing p with
  | nil => simp
  | cons r rest ih =>
    rw [List.foldl_cons]
    by_cases h : p.2 ≤ r.2
    · rw [if_pos h]
      rcases List.mem_cons.mp (ih p) with h1 | h1
      · rw [h1]; exact List.mem_cons_self _ _
      · exact List.mem_cons_of_mem _ (List.mem_cons_of_mem _ h1)
    · rw [if_neg h]
      rcases List.mem_cons.mp (ih r) with h1 | h1
      · rw [h1]; exact List.mem_cons_of_mem _ (List.mem_cons_self _ _)
      · exact List.mem_cons_of_mem _ (List.mem_cons_of_mem _ h1)

theorem minFold_le (l : List (Node × Nat)) (p : Node × Nat) :
    ∀ x ∈ p :: l, (l.foldl (fun best q => if best.2 ≤ q.2 then best else q) p).2 ≤ x.2 := by
  induction l generalizing p with
  | nil =>
    intro x hx
    rw [List.mem_singleton] at hx
    rw [hx]
    simp
  | cons r rest ih =>
    intro x hx
    rw [List.foldl_cons]
    rcases List.mem_cons.mp hx with h1 | h1
    · by_cases h : p.2 ≤ r.2
      · rw [if_pos h, h1]
        exact ih p p (List.mem_cons_self _ _)
      · rw [if_neg h, h1]
        calc (rest.foldl _ r).2 ≤ r.2 := ih r r (List.mem_cons_self _ _)
          _ ≤ p.2 := le_of_not_le h
    · rcases List.mem_cons.mp h1 with h2 | h2
      · by_cases h : p.2 ≤ r.2
        · rw [if_pos h, h2]
          calc (rest.foldl _ p).2 ≤ p.2 := ih p p (List.mem_cons_self _ _)
            _ ≤ r.2 := h
        · rw [if_neg h, h2]
          exact ih r r (List.mem_cons_self _ _)
      · by_cases h : p.2 ≤ r.2
        · rw [if_pos h]
          exact ih p x (List.mem_cons_of_mem _ h2)
        · rw [if_neg h]
          exact ih r x (List.mem_cons_of_mem _ h2)

theorem contains_iff_mem (V : List Node) (a : Node) : V.contains a = true ↔ a ∈ V :=
  List.elem_iff

theorem get_next_node_none_iff (P : DistMap) (V : Visited) :
    get_next_node P V = none ↔ ∀ kv ∈ P, kv.1 ∈ V := by
  unfold get_next_node
  rcases h : P.filter (fun p => !(V.contains p.1)) with _ | ⟨p, ps⟩
  · rw [h]
    rw [List.filter_eq_nil_iff] at h
    simp only [true_iff]
    intro kv hkv
    have h2 := h kv hkv
    rw [Bool.not_eq_true'] at h2
    rcases hb : V.contains kv.1 with _ | _
    · exact absurd hb h2
    · exact (contains_iff_mem V kv.1).mp hb
  · rw [h]
    simp only [reduceCtorEq, false_iff]
    intro hall
    have hp : p ∈ P.filter (fun q => !(V.contains q.1)) := by
      rw [h]; exact List.mem_cons_self _ _
    have hfil := List.of_mem_filter hp
    rw [Bool.not_eq_true'] at hfil
    have hm := (contains_iff_mem V p.1).mpr (hall p (List.mem_of_mem_filter hp))
    rw [hfil] at hm
    exact Bool.noConfusion hm

theorem get_next_node_some (P : DistMap) (V : Visited) (u : Node) (cu : Nat)
    (h : get_next_node P V = some (u, cu)) :
    (u, cu) ∈ P ∧ u ∉ V ∧ ∀ x nx, (x, nx) ∈ P → x ∉ V → cu ≤ nx := by
  unfold get_next_node at h
  rcases hf : P.filter (fun p => !(V.contains p.1)) with _ | ⟨p, ps⟩
  · rw [hf] at h
    exact Option.noConfusion h
  · rw [hf] at h
    have hfold := Option.some.inj h
    have hmem : (u, cu) ∈ p :: ps := hfold ▸ minFold_mem ps p
    have hmemf : (u, cu) ∈ P.filter (fun q => !(V.contains q.1)) := hf ▸ hmem
    refine ⟨List.mem_of_mem_filter hmemf, ?_, ?_⟩
    · have h2 := List.of_mem_filter hmemf
      rw [Bool.not_eq_true'] at h2
      intro hv
      have hm := (contains_iff_mem V u).mpr hv
      rw [hm] at h2
      exact Bool.noConfusion h2
    · intro x nx hx hxv
      have hxf : (x, nx) ∈ P.filter (fun q => !(V.contains q.1)) := by
        refine List.mem_filter.mpr ⟨hx, ?_⟩
        rw [Bool.not_eq_true']
        rcases hb : V.contains x with _ | _
        · rfl
        · exact absurd ((contains_iff_mem V x).mp hb) hxv
      rw [hf] at hxf
      have h3 := minFold_le ps p (x, nx) hxf
      rw [hfold] at h3
      exact h3

/-! ## Path cost lemmas -/

@[simp] theorem pathCost_single (g : Graph) (a : Node) : pathCost g [a] = some 0 := rfl

theorem pathCost_cons_of (g : Graph) (u v : Node) (rest : List Node) (w c : Nat)
    (he : edgeWeight g u v = some w) (hc : pathCost g (v :: rest) = some c) :
    pathCost g (u :: v :: rest) = some (w + c) := by
  unfold pathCost
  rw [he, hc]

theorem pathCost_cons_elim (g : Graph) (u v : Node) (rest : List Node) (c : Nat)
    (h : pathCost g (u :: v :: rest) = some c) :
    ∃ w c', edgeWeight g u v = some w ∧ pathCost g (v :: rest) = some c' ∧ c = w + c' := by
  unfold pathCost at h
  rcases he : edgeWeight g u v with _ | w
  · rw [he] at h
    exact Option.noConfusion h
  · rcases hc : pathCost g (v :: rest) with _ | c'
    · rw [he, hc] at h
      exact Option.noConfusion h
    · rw [he, hc] at h
      exact ⟨w, c', rfl, rfl, (Option.some.inj h).symm⟩

theorem pathCost_append_last (g : Graph) :
    ∀ (p : List Node) (y x : Node) (w c : Nat), p.getLast? = some y →
      pathCost g p = some c → edgeWeight g y x = some w →
      pathCost g (p ++ [x]) = some (c + w) := by
  intro p
  induction p with
  | nil =>
    intro y x w c hy
    simp at hy
  | cons a rest ih =>
    intro y x w c hy hc he
    cases rest with
    | nil =>
      rw [List.getLast?_singleton] at hy
      obtain rfl : a = y := Option.some.inj hy
      obtain rfl : (0 : Nat) = c := Option.some.inj hc
      have h2 : pathCost g ([a] ++ [x]) = some (w + 0) :=
        pathCost_cons_of g a x [] w 0 he rfl
      simpa using h2
    | cons b rest' =>
      rw [List.getLast?_cons_cons] at hy
      obtain ⟨wab, c', heab, hc', rfl⟩ := pathCost_cons_elim g a b rest' c hc
      have hrec := ih y x w c' hy hc' he
      have : pathCost g (a :: ((b :: rest') ++ [x])) = some (wab + (c' + w)) :=
        pathCost_cons_of g a b (rest' ++ [x]) wab (c' + w) heab hrec
      simpa [Nat.add_assoc] using this

theorem pathCost_ne_nil (g : Graph) (p : List Node) (c : Nat)
    (h : pathCost g p = some c) : p ≠ [] := by
  intro he
  rw [he] at h
  exact Option.noConfusion h

/-- A path from a visited node to an unvisited node crosses the visited
boundary: it has an edge from a visited `y` to an unvisited `z`, and the
prefix up to `y` is itself a path whose cost (plus the crossing edge) bounds
the total cost from below. -/
theorem exists_exit_edge (g : Graph) (V : Visited) :
    ∀ (p : List Node) (s x : Node) (c : Nat),
      p.head? = some s → p.getLast? = some x → pathCost g p = some c →
      s ∈ V → x ∉ V →
      ∃ y z w ppre cpre, y ∈ V ∧ z ∉ V ∧ edgeWeight g y z = some w ∧
        List.head? ppre = some s ∧ List.getLast? ppre = some y ∧
        pathCost g ppre = some cpre ∧ cpre + w ≤ c := by
  intro p
  induction p with
  | nil =>
    intro s x c hh
    simp at hh
  | cons a rest ih =>
    intro s x c hh hl hc hs hx
    rw [List.head?_cons] at hh
    obtain rfl : a = s := Option.some.inj hh
    cases rest with
    | nil =>
      rw [List.getLast?_singleton] at hl
      obtain rfl : a = x := Option.some.inj hl
      exact absurd hs hx
    | cons b rest' =>
      rw [List.getLast?_cons_cons] at hl
      obtain ⟨wab, c', heab, hc', rfl⟩ := pathCost_cons_elim g a b rest' c hc
      by_cases hb : b ∈ V
      · obtain ⟨y, z, w, ppre, cpre, hy, hz, he, hph, hpl, hpc, hle⟩ :=
          ih b x c' List.head?_cons hl hc' hb hx
        rcases ppre with _ | ⟨p0, ptl⟩
        · simp at hph
        · rw [List.head?_cons] at hph
          obtain rfl : p0 = b := Option.some.inj hph
          refine ⟨y, z, w, a :: p0 :: ptl, wab + cpre, hy, hz, he, List.head?_cons, ?_, ?_, ?_⟩
          · rw [List.getLast?_cons_cons]
            exact hpl
          · exact pathCost_cons_of g a p0 ptl wab cpre heab hpc
          · omega
      · exact ⟨a, b, wab, [a], 0, hs, hb, heab, List.head?_cons,
          List.getLast?_singleton a, rfl, by omega⟩

/-! ## The relaxation loop specification -/

theorem relaxEdge_eq_insert (u : Node) (cu : Nat) (P : DistMap) (O : OriginMap)
    (e : Node × Nat) (h : findEntry P e.1 = none) :
    relaxEdge u cu (P, O) e = (setEntry P e.1 (cu + e.2), setEntry O e.1 u) := by
  unfold relaxEdge
  rw [h]

theorem relaxEdge_eq_update (u : Node) (cu : Nat) (P : DistMap) (O : OriginMap)
    (e : Node × Nat) (old : Nat) (h : findEntry P e.1 = some old) (hlt : old > cu + e.2) :
    relaxEdge u cu (P, O) e = (setEntry P e.1 (cu + e.2), setEntry O e.1 u) := by
  unfold relaxEdge
  rw [h]
  simp only [if_pos hlt]

theorem relaxEdge_eq_skip (u : Node) (cu : Nat) (P : DistMap) (O : OriginMap)
    (e : Node × Nat) (old : Nat) (h : findEntry P e.1 = some old) (hlt : ¬(old > cu + e.2)) :
    relaxEdge u cu (P, O) e = (P, O) := by
  unfold relaxEdge
  rw [h]
  simp only [if_neg hlt]

theorem relaxEdge_cases (u : Node) (cu : Nat) (P : DistMap) (O : OriginMap)
    (e : Node × Nat) (hu : findEntry P u = some cu) :
    (relaxEdge u cu (P, O) e = (setEntry P e.1 (cu + e.2), setEntry O e.1 u) ∧ e.1 ≠ u ∧
      ∀ old, findEntry P e.1 = some old → cu + e.2 < old) ∨
    (relaxEdge u cu (P, O) e = (P, O) ∧
      ∃ old, findEntry P e.1 = some old ∧ old ≤ cu + e.2) := by
  rcases hf : findEntry P e.1 with _ | old
  · left
    refine ⟨relaxEdge_eq_insert u cu P O e hf, ?_, ?_⟩
    · intro he
      rw [he, hu] at hf
      exact Option.noConfusion hf
    · intro old hold
      exact Option.noConfusion hold
  · by_cases hcmp : old > cu + e.2
    · left
      refine ⟨relaxEdge_eq_update u cu P O e old hf hcmp, ?_, ?_⟩
      · intro he
        rw [he, hu] at hf
        obtain rfl : cu = old := Option.some.inj hf
        omega
      · intro old2 hold
        obtain rfl : old = old2 := Option.some.inj hold
        exact hcmp
    · right
      exact ⟨relaxEdge_eq_skip u cu P O e old hf hcmp, old, rfl, by omega⟩

/-- What one pass of the relaxation `for` loop guarantees: `Q`/`R` are the
distance and origin maps after expanding node `u` (tentative distance `cu`)
over `edges`, starting from `P`/`O`. -/
structure RelaxSpec (u : Node) (cu : Nat) (edges : AdjMap)
    (P : DistMap) (O : OriginMap) (Q : DistMap) (R : OriginMap) : Prop where
  ndQ : (keysOf Q).Nodup
  ndR : (keysOf R).Nodup
  distU : findEntry Q u = some cu
  change : ∀ x, (findEntry Q x = findEntry P x ∧ findEntry R x = findEntry O x) ∨
    (x ≠ u ∧ findEntry R x = some u ∧ ∃ w, (x, w) ∈ edges ∧
      findEntry Q x = some (cu + w) ∧
      ∀ old, findEntry P x = some old → cu + w < old)
  relaxed : ∀ x w, (x, w) ∈ edges → ∃ nx, findEntry Q x = some nx ∧ nx ≤ cu + w
  upper : ∀ x n, findEntry Q x = some n →
    findEntry P x = some n ∨ ∃ w, (x, w) ∈ edges ∧ n = cu + w
  mono : ∀ x n, findEntry P x = some n → ∃ m, findEntry Q x = some m ∧ m ≤ n

theorem relaxFold_spec (u : Node) (cu : Nat) :
    ∀ (edges : AdjMap) (P : DistMap) (O : OriginMap),
      (keysOf P).Nodup → (keysOf O).Nodup → findEntry P u = some cu →
      RelaxSpec u cu edges P O
        (edges.foldl (relaxEdge u cu) (P, O)).1 (edges.foldl (relaxEdge u cu) (P, O)).2 := by
  intro edges
  induction edges with
  | nil =>
    intro P O hP hO hu
    exact {
      ndQ := hP
      ndR := hO
      distU := hu
      change := fun x => Or.inl ⟨rfl, rfl⟩
      relaxed := fun x w hx => absurd hx (List.not_mem_nil _)
      upper := fun x n h => Or.inl h
      mono := fun x n h => ⟨n, h, le_refl n⟩ }
  | cons e rest ih =>
    intro P O hP hO hu
    rw [List.foldl_cons]
    rcases relaxEdge_cases u cu P O e hu with ⟨heq, hneu, hcond⟩ | ⟨heq, old, hold, hle⟩
    · -- the edge updated both maps
      rw [heq]
      have hP1 : (keysOf (setEntry P e.1 (cu + e.2))).Nodup := keysOf_setEntry_nodup P e.1 _ hP
      have hO1 : (keysOf (setEntry O e.1 u)).Nodup := keysOf_setEntry_nodup O e.1 u hO
      have hu1 : findEntry (setEntry P e.1 (cu + e.2)) u = some cu := by
        rw [findEntry_setEntry_ne P e.1 u _ (fun he => hneu he.symm)]
        exact hu
      have spec := ih (setEntry P e.1 (cu + e.2)) (setEntry O e.1 u) hP1 hO1 hu1
      refine {
        ndQ := spec.ndQ
        ndR := spec.ndR
        distU := spec.distU
        change := ?_
        relaxed := ?_
        upper := ?_
        mono := ?_ }
      · intro x
        rcases spec.change x with ⟨hQ, hR⟩ | ⟨hxu, hR, w, hw, hQ, hrest⟩
        · by_cases hxe : x = e.1
          · subst hxe
            right
            refine ⟨hneu, ?_, e.2, ?_, ?_, hcond⟩
            · rw [hR, findEntry_setEntry_self]
            · rw [Prod.mk.eta]
              exact List.mem_cons_self _ _
            · rw [hQ, findEntry_setEntry_self]
          · left
            constructor
            · rw [hQ, findEntry_setEntry_ne P e.1 x _ hxe]
            · rw [hR, findEntry_setEntry_ne O e.1 x u hxe]
        · right
          refine ⟨hxu, hR, w, List.mem_cons_of_mem _ hw, hQ, ?_⟩
          intro ol hol
          by_cases hxe : x = e.1
          · subst hxe
            have h1 := hcond ol hol
            have h2 := hrest (cu + e.2) (findEntry_setEntry_self P e.1 (cu + e.2))
            omega
          · rw [← findEntry_setEntry_ne P e.1 x (cu + e.2) hxe] at hol
            exact hrest ol hol
      · intro x w hxw
        rcases List.mem_cons.mp hxw with h1 | h1
        · obtain ⟨rfl, rfl⟩ : x = e.1 ∧ w = e.2 := ⟨congrArg Prod.fst h1, congrArg Prod.snd h1⟩
          obtain ⟨m, hm, hmle⟩ :=
            spec.mono e.1 (cu + e.2) (findEntry_setEntry_self P e.1 (cu + e.2))
          exact ⟨m, hm, hmle⟩
        · exact spec.relaxed x w h1
      · intro x n hQ
        rcases spec.upper x n hQ with h1 | ⟨w, hw, rfl⟩
        · by_cases hxe : x = e.1
          · subst hxe
            rw [findEntry_setEntry_self] at h1
            right
            refine ⟨e.2, ?_, (Option.some.inj h1).symm⟩
            rw [Prod.mk.eta]
            exact List.mem_cons_self _ _
          · rw [findEntry_setEntry_ne P e.1 x _ hxe] at h1
            exact Or.inl h1
        · exact Or.inr ⟨w, List.mem_cons_of_mem _ hw, rfl⟩
      · intro x n hx
        by_cases hxe : x = e.1
        · subst hxe
          have hlt := hcond n hx
          obtain ⟨m, hm, hmle⟩ :=
            spec.mono e.1 (cu + e.2) (findEntry_setEntry_self P e.1 (cu + e.2))
          exact ⟨m, hm, by omega⟩
        · rw [← findEntry_setEntry_ne P e.1 x (cu + e.2) hxe] at hx
          exact spec.mono x n hx
    · -- the edge changed nothing
      rw [heq]
      have spec := ih P O hP hO hu
      refine {
        ndQ := spec.ndQ
        ndR := spec.ndR
        distU := spec.distU
        change := ?_
        relaxed := ?_
        upper := ?_
        mono := ?_ }
      · intro x
        rcases spec.change x with h1 | ⟨hxu, hR, w, hw, hQ, hrest⟩
        · exact Or.inl h1
        · exact Or.inr ⟨hxu, hR, w, List.mem_cons_of_mem _ hw, hQ, hrest⟩
      · intro x w hxw
        rcases List.mem_cons.mp hxw with h1 | h1
        · obtain ⟨rfl, rfl⟩ : x = e.1 ∧ w = e.2 := ⟨congrArg Prod.fst h1, congrArg Prod.snd h1⟩
          obtain ⟨m, hm, hmle⟩ := spec.mono e.1 old hold
          exact ⟨m, hm, by omega⟩
        · exact spec.relaxed x w h1
      · intro x n hQ
        rcases spec.upper x n hQ with h1 | ⟨w, hw, rfl⟩
        · exact Or.inl h1
        · exact Or.inr ⟨w, List.mem_cons_of_mem _ hw, rfl⟩
      · exact spec.mono

theorem relaxAll_spec (adj : AdjMap) (u : Node) (cu : Nat) (P : DistMap) (O : OriginMap)
    (hP : (keysOf P).Nodup) (hO : (keysOf O).Nodup) (hu : findEntry P u = some cu) :
    RelaxSpec u cu adj P O (relaxAll adj u cu P O).1 (relaxAll adj u cu P O).2 :=
  relaxFold_spec u cu adj P O hP hO hu

/-! ## Visitation ranks -/

/-- Position of `x` in the visited list (which is newest-first), so a larger
rank means visited earlier. -/
def rankOf (V : Visited) (x : Node) : Nat :=
  match V with
  | [] => 0
  | y :: rest => if y = x then 0 else rankOf rest x + 1

@[simp] theorem rankOf_cons_self (V : Visited) (x : Node) : rankOf (x :: V) x = 0 := by
  simp [rankOf]

theorem rankOf_cons_ne (V : Visited) (y x : Node) (h : y ≠ x) :
    rankOf (y :: V) x = rankOf V x + 1 := by
  simp [rankOf, h]

/-! ## Helper facts about adjacency lists and `allNodes` -/

theorem mem_adj_allNodes (g : Graph) (s u x : Node) (w : Nat)
    (h : (x, w) ∈ (findEntry g u).getD []) : x ∈ allNodes g s := by
  rcases hf : findEntry g u with _ | adjm
  · rw [hf] at h
    simp at h
  · rw [hf] at h
    have hmem : (u, adjm) ∈ g := findEntry_mem g u adjm hf
    unfold allNodes
    apply List.mem_cons_of_mem
    apply List.mem_append_right
    apply List.mem_flatten.mpr
    refine ⟨adjm.map Prod.fst, ?_, ?_⟩
    · exact List.mem_map.mpr ⟨(u, adjm), hmem, rfl⟩
    · exact List.mem_map.mpr ⟨(x, w), h, rfl⟩

theorem source_mem_allNodes (g : Graph) (s : Node) : s ∈ allNodes g s :=
  List.mem_cons_self _ _

/-- In a well-formed graph, membership of the adjacency list read for `u`
gives the edge weight. -/
theorem adj_edgeWeight (g : Graph) (u x : Node) (w : Nat) (hwf : WFGraph g)
    (h : (x, w) ∈ (findEntry g u).getD []) : edgeWeight g u x = some w := by
  rcases hf : findEntry g u with _ | adjm
  · rw [hf] at h
    simp at h
  · rw [hf] at h
    have hmem : (u, adjm) ∈ g := findEntry_mem g u adjm hf
    have hnd : (keysOf adjm).Nodup := hwf.2 (u, adjm) hmem
    unfold edgeWeight
    rw [hf]
    exact findEntry_of_mem adjm x w hnd h

/-! ## The progression invariant -/

/-- Invariant of the `dijkstra_progression` recursion, tying the tentative
distance map `P`, the origin map `O` and the visited set `V` to the graph
`g`, the source `s` and the destination `d`. -/
structure Inv (g : Graph) (s d : Node) (P : DistMap) (O : OriginMap) (V : Visited) :
    Prop where
  ndP : (keysOf P).Nodup
  ndO : (keysOf O).Nodup
  ndV : V.Nodup
  dist0 : findEntry P s = some 0
  visMem : ∀ v ∈ V, v ∈ keysOf P
  dNotVis : d ∉ V
  start : s ∈ V ∨ (V = [] ∧ P = [(s, 0)] ∧ O = [])
  reach : ∀ x n, findEntry P x = some n →
    ∃ p, List.head? p = some s ∧ List.getLast? p = some x ∧ pathCost g p = some n
  lower : ∀ v ∈ V, ∀ nv, findEntry P v = some nv →
    ∀ p c, List.head? p = some s → List.getLast? p = some v →
      pathCost g p = some c → nv ≤ c
  frontier : ∀ v ∈ V, ∀ x w, (x, w) ∈ (findEntry g v).getD [] →
    ∃ nx nv, findEntry P x = some nx ∧ findEntry P v = some nv ∧ nx ≤ nv + w
  originOK : ∀ x y, findEntry O x = some y → x ≠ s ∧ y ∈ V ∧
    (∃ w nx ny, edgeWeight g y x = some w ∧ findEntry P x = some nx ∧
      findEntry P y = some ny ∧ nx = ny + w) ∧
    (x ∈ V → rankOf V x < rankOf V y)
  originTotal : ∀ x ∈ keysOf P, x ≠ s → x ∈ keysOf O
  keysSub : ∀ x ∈ keysOf P, x ∈ allNodes g s

/-- The invariant holds for the state `dijkstra` builds before the first
progression step. -/
theorem Inv_init (g : Graph) (s d : Node) : Inv g s d [(s, 0)] [] [] where
  ndP := by simp
  ndO := by simp
  ndV := List.nodup_nil
  dist0 := by simp [findEntry]
  visMem := fun v hv => absurd hv (List.not_mem_nil v)
  dNotVis := List.not_mem_nil d
  start := Or.inr ⟨rfl, rfl, rfl⟩
  reach := by
    intro x n h
    rw [findEntry_cons] at h
    by_cases hs : s = x
    · rw [if_pos hs] at h
      obtain rfl : (0 : Nat) = n := Option.some.inj h
      exact ⟨[s], by simp, by simp [hs], by simp⟩
    · rw [if_neg hs] at h
      simp at h
  lower := fun v hv => absurd hv (List.not_mem_nil v)
  frontier := fun v hv => absurd hv (List.not_mem_nil v)
  originOK := fun x y h => by simp at h
  originTotal := by
    intro x hx hxs
    rw [keysOf_cons] at hx
    rcases List.mem_cons.mp hx with h | h
    · exact absurd h hxs
    · simp at h
  keysSub := by
    intro x hx
    rw [keysOf_cons] at hx
    rcases List.mem_cons.mp hx with h | h
    · rw [h]
      exact source_mem_allNodes g s
    · simp at h

/-- Each visited node has a tentative distance. -/
theorem Inv.visDist (g : Graph) (s d : Node) (P : DistMap) (O : OriginMap) (V : Visited)
    (hInv : Inv g s d P O V) (v : Node) (hv : v ∈ V) : ∃ nv, findEntry P v = some nv := by
  have h := hInv.visMem v hv
  rw [← findEntry_isSome_iff] at h
  rcases hf : findEntry P v with _ | nv
  · rw [hf] at h
    exact Bool.noConfusion h
  · exact ⟨nv, rfl⟩

/-- Dijkstra's key argument: the node selected by `get_next_node` already
carries its final shortest distance — no path from the source can beat the
selected tentative distance. -/
theorem selection_min (g : Graph) (s d : Node) (P : DistMap) (O : OriginMap) (V : Visited)
    (u : Node) (cu : Nat) (hInv : Inv g s d P O V)
    (hsel : get_next_node P V = some (u, cu)) :
    ∀ p c, List.head? p = some s → List.getLast? p = some u →
      pathCost g p = some c → cu ≤ c := by
  intro p c hh hl hc
  obtain ⟨hmem, hunv, hmin⟩ := get_next_node_some P V u cu hsel
  rcases hInv.start with hsV | ⟨hV, hP, hO⟩
  · obtain ⟨y, z, w, ppre, cpre, hy, hz, he, hph, hpl, hpc, hle⟩ :=
      exists_exit_edge g V p s u c hh hl hc hsV hunv
    have hzadj : (z, w) ∈ (findEntry g y).getD [] := by
      unfold edgeWeight at he
      rcases hf : findEntry g y with _ | adjm
      · rw [hf] at he
        exact Option.noConfusion he
      · rw [hf] at he
        exact findEntry_mem adjm z w he
    obtain ⟨nz, ny, hnz, hny, hnzle⟩ := hInv.frontier y hy z w hzadj
    have hylow := hInv.lower y hy ny hny ppre cpre hph hpl hpc
    have hcu := hmin z nz (findEntry_mem P z nz hnz) hz
    omega
  · subst hP
    have h := List.mem_singleton.mp hmem
    obtain ⟨rfl, rfl⟩ : u = s ∧ cu = 0 := ⟨congrArg Prod.fst h, congrArg Prod.snd h⟩
    omega

theorem head?_append_left {α : Type} (l l2 : List α) (a : α) (h : l.head? = some a) :
    (l ++ l2).head? = some a := by
  rw [List.head?_append, h]
  rfl

/-- One full non-final iteration of the progression (select `u`, relax all its
outgoing edges, mark it visited) preserves the invariant. -/
theorem Inv_step (g : Graph) (s d : Node) (P : DistMap) (O : OriginMap) (V : Visited)
    (u : Node) (cu : Nat) (hwf : WFGraph g) (hInv : Inv g s d P O V)
    (hsel : get_next_node P V = some (u, cu)) (hud : u ≠ d) :
    Inv g s d (relaxAll ((findEntry g u).getD []) u cu P O).1
      (relaxAll ((findEntry g u).getD []) u cu P O).2 (u :: V) := by
  obtain ⟨hmem, hunv, hmin⟩ := get_next_node_some P V u cu hsel
  have huP : findEntry P u = some cu := findEntry_of_mem P u cu hInv.ndP hmem
  set adj := (findEntry g u).getD [] with hadjdef
  have spec := relaxAll_spec adj u cu P O hInv.ndP hInv.ndO huP
  set Q := (relaxAll adj u cu P O).1 with hQdef
  set R := (relaxAll adj u cu P O).2 with hRdef
  obtain ⟨pu, hpuh, hpul, hpuc⟩ := hInv.reach u cu huP
  have hreach_ext : ∀ x w, (x, w) ∈ adj →
      ∃ p, List.head? p = some s ∧ List.getLast? p = some x ∧
        pathCost g p = some (cu + w) := by
    intro x w hxw
    refine ⟨pu ++ [x], head?_append_left pu [x] s hpuh, List.getLast?_concat pu, ?_⟩
    exact pathCost_append_last g pu u x w cu hpul hpuc (adj_edgeWeight g u x w hwf hxw)
  have hu_opt : ∀ p c, List.head? p = some s → List.getLast? p = some u →
      pathCost g p = some c → cu ≤ c := selection_min g s d P O V u cu hInv hsel
  have hvis_unch : ∀ v ∈ V,
      findEntry Q v = findEntry P v ∧ findEntry R v = findEntry O v := by
    intro v hv
    rcases spec.change v with h1 | ⟨hvu, hRv, w, hw, hQv, hcond⟩
    · exact h1
    · exfalso
      obtain ⟨nv, hnv⟩ := Inv.visDist g s d P O V hInv v hv
      have h2 := hcond nv hnv
      obtain ⟨p2, hp2h, hp2l, hp2c⟩ := hreach_ext v w hw
      have h3 := hInv.lower v hv nv hnv p2 (cu + w) hp2h hp2l hp2c
      omega
  refine {
    ndP := spec.ndQ
    ndO := spec.ndR
    ndV := List.nodup_cons.mpr ⟨hunv, hInv.ndV⟩
    dist0 := ?_
    visMem := ?_
    dNotVis := ?_
    start := ?_
    reach := ?_
    lower := ?_
    frontier := ?_
    originOK := ?_
    originTotal := ?_
    keysSub := ?_ }
  · rcases spec.change s with ⟨hQs, hRs⟩ | ⟨hsu, hRs, w, hw, hQs, hcond⟩
    · rw [hQs]
      exact hInv.dist0
    · exfalso
      have h2 := hcond 0 hInv.dist0
      omega
  · intro v hv
    rcases List.mem_cons.mp hv with rfl | hv2
    · rw [← findEntry_isSome_iff, spec.distU]
      rfl
    · obtain ⟨nv, hnv⟩ := Inv.visDist g s d P O V hInv v hv2
      obtain ⟨m, hm, hmle⟩ := spec.mono v nv hnv
      rw [← findEntry_isSome_iff, hm]
      rfl
  · intro hd
    rcases List.mem_cons.mp hd with h | h
    · exact hud h.symm
    · exact hInv.dNotVis h
  · left
    rcases hInv.start with h | ⟨hV, hP, hO⟩
    · exact List.mem_cons_of_mem u h
    · have h2 := List.mem_singleton.mp (hP ▸ hmem)
      have h3 : u = s := congrArg Prod.fst h2
      rw [← h3]
      exact List.mem_cons_self u V
  · intro x n hx
    rcases spec.upper x n hx with h1 | ⟨w, hw, rfl⟩
    · exact hInv.reach x n h1
    · exact hreach_ext x w hw
  · intro v hv nv hnv p c hh hl hc
    rcases List.mem_cons.mp hv with rfl | hv2
    · rw [spec.distU] at hnv
      obtain rfl : cu = nv := Option.some.inj hnv
      exact hu_opt p c hh hl hc
    · rw [(hvis_unch v hv2).1] at hnv
      exact hInv.lower v hv2 nv hnv p c hh hl hc
  · intro v hv x w hxw
    rcases List.mem_cons.mp hv with rfl | hv2
    · obtain ⟨nx, hnx, hnxle⟩ := spec.relaxed x w hxw
      exact ⟨nx, cu, hnx, spec.distU, hnxle⟩
    · obtain ⟨nx, nv, hnx, hnv, hle⟩ := hInv.frontier v hv2 x w hxw
      obtain ⟨m, hm, hmle⟩ := spec.mono x nx hnx
      refine ⟨m, nv, hm, ?_, by omega⟩
      rw [(hvis_unch v hv2).1]
      exact hnv
  · intro x y hxy
    rcases spec.change x with ⟨hQx, hRx⟩ | ⟨hxu, hRx, w, hw, hQx, hcond⟩
    · rw [hRx] at hxy
      obtain ⟨hxs, hyV, ⟨w, nx, ny, hew, hnx, hny, heq⟩, hrank⟩ := hInv.originOK x y hxy
      have hyne : y ≠ u := fun he => hunv (he ▸ hyV)
      refine ⟨hxs, List.mem_cons_of_mem u hyV, ⟨w, nx, ny, hew, ?_, ?_, heq⟩, ?_⟩
      · rw [hQx]
        exact hnx
      · rw [(hvis_unch y hyV).1]
        exact hny
      · intro hxV2
        rcases List.mem_cons.mp hxV2 with rfl | hxV
        · rw [rankOf_cons_self, rankOf_cons_ne V x y (Ne.symm hyne)]
          omega
        · have hr := hrank hxV
          have hxne : x ≠ u := fun he => hunv (he ▸ hxV)
          rw [rankOf_cons_ne V u x (Ne.symm hxne), rankOf_cons_ne V u y (Ne.symm hyne)]
          omega
    · obtain rfl : u = y := Option.some.inj (hRx.symm.trans hxy)
      refine ⟨?_, List.mem_cons_self u V,
        ⟨w, cu + w, cu, adj_edgeWeight g u x w hwf hw, hQx, spec.distU, rfl⟩, ?_⟩
      · intro he
        subst he
        have h2 := hcond 0 hInv.dist0
        omega
      · intro hxV2
        rcases List.mem_cons.mp hxV2 with rfl | hxV
        · exact absurd rfl hxu
        · exfalso
          obtain ⟨nv, hnv⟩ := Inv.visDist g s d P O V hInv x hxV
          have h2 := hcond nv hnv
          have h3 := (hvis_unch x hxV).1
          rw [h3, hnv] at hQx
          have h4 := Option.some.inj hQx
          omega
  · intro x hx hxs
    rw [← findEntry_isSome_iff] at hx
    rcases hq : findEntry Q x with _ | n
    · rw [hq] at hx
      exact Bool.noConfusion hx
    · rcases spec.change x with ⟨hQx, hRx⟩ | ⟨hxu, hRx, hrest⟩
      · rw [hQx] at hq
        have h2 := hInv.originTotal x (mem_keysOf_of_findEntry P x n hq) hxs
        rw [← findEntry_isSome_iff] at h2 ⊢
        rw [hRx]
        exact h2
      · rw [← findEntry_isSome_iff, hRx]
        rfl
  · intro x hx
    rw [← findEntry_isSome_iff] at hx
    rcases hq : findEntry Q x with _ | n
    · rw [hq] at hx
      exact Bool.noConfusion hx
    · rcases spec.upper x n hq with h1 | ⟨w, hw, hrest⟩
      · exact hInv.keysSub x (mem_keysOf_of_findEntry P x n h1)
      · exact mem_adj_allNodes g s u x w hw

/-! ## Unfolding equations for one progression step -/

theorem dijkstra_progression_succ_none (fuel : Nat) (g : Graph) (P : DistMap)
    (O : OriginMap) (V : Visited) (d : Node) (h : get_next_node P V = none) :
    dijkstra_progression (fuel + 1) g P O V d = some (P, O, V, none) := by
  rw [dijkstra_progression, h]

theorem dijkstra_progression_succ_dest (fuel : Nat) (g : Graph) (P : DistMap)
    (O : OriginMap) (V : Visited) (d u : Node) (cu : Nat)
    (h : get_next_node P V = some (u, cu)) (hud : u = d) :
    dijkstra_progression (fuel + 1) g P O V d = some (P, O, V, some d) := by
  rw [dijkstra_progression, h]
  subst hud
  simp

theorem dijkstra_progression_succ_step (fuel : Nat) (g : Graph) (P : DistMap)
    (O : OriginMap) (V : Visited) (d u : Node) (cu : Nat)
    (h : get_next_node P V = some (u, cu)) (hud : u ≠ d) :
    dijkstra_progression (fuel + 1) g P O V d =
      dijkstra_progression fuel g (relaxAll ((findEntry g u).getD []) u cu P O).1
        (relaxAll ((findEntry g u).getD []) u cu P O).2 (u :: V) d := by
  rw [dijkstra_progression, h]
  simp [hud]

/-- Master run theorem: starting from an invariant state, any completed run of
`dijkstra_progression` ends in an invariant state; an unsuccessful run ends
exactly when `get_next_node` signals exhaustion, and a successful run ends
with the destination selected by `get_next_node`. -/
theorem progression_master :
    ∀ (fuel : Nat) (g : Graph) (s d : Node) (P : DistMap) (O : OriginMap) (V : Visited)
      (P2 : DistMap) (O2 : OriginMap) (V2 : Visited) (res : Option Node),
      WFGraph g → Inv g s d P O V →
      dijkstra_progression fuel g P O V d = some (P2, O2, V2, res) →
      Inv g s d P2 O2 V2 ∧ (∀ x ∈ V, x ∈ V2) ∧
      (res = none → get_next_node P2 V2 = none) ∧
      (∀ r, res = some r → r = d ∧ ∃ cd, get_next_node P2 V2 = some (d, cd)) := by
  intro fuel
  induction fuel with
  | zero =>
    intro g s d P O V P2 O2 V2 res hwf hInv hrun
    exact Option.noConfusion hrun
  | succ fuel ih =>
    intro g s d P O V P2 O2 V2 res hwf hInv hrun
    rcases hsel : get_next_node P V with _ | ⟨u, cu⟩
    · rw [dijkstra_progression_succ_none fuel g P O V d hsel] at hrun
      cases hrun
      refine ⟨hInv, fun x hx => hx, fun _ => hsel, ?_⟩
      intro r hr
      exact Option.noConfusion hr
    · by_cases hud : u = d
      · rw [dijkstra_progression_succ_dest fuel g P O V d u cu hsel hud] at hrun
        cases hrun
        refine ⟨hInv, fun x hx => hx, ?_, ?_⟩
        · intro h
          exact Option.noConfusion h
        · intro r hr
          obtain rfl : d = r := Option.some.inj hr
          rw [hud] at hsel
          exact ⟨rfl, cu, hsel⟩
      · rw [dijkstra_progression_succ_step fuel g P O V d u cu hsel hud] at hrun
        have hInv2 := Inv_step g s d P O V u cu hwf hInv hsel hud
        obtain ⟨hI, hsub, hnone, hsome⟩ :=
          ih g s d _ _ (u :: V) P2 O2 V2 res hwf hInv2 hrun
        refine ⟨hI, ?_, hnone, hsome⟩
        intro x hx
        exact hsub x (List.mem_cons_of_mem u hx)

/-! ## Fuel sufficiency for the progression loop -/

theorem not_contains_iff (V : List Node) (x : Node) :
    (!(V.contains x)) = true ↔ x ∉ V := by
  rw [Bool.not_eq_true']
  constructor
  · intro h hm
    rw [(contains_iff_mem V x).mpr hm] at h
    exact Bool.noConfusion h
  · intro h
    rcases hb : V.contains x with _ | _
    · rfl
    · exact absurd ((contains_iff_mem V x).mp hb) h

theorem filter_unvisited_eq (L : List Node) (V : Visited) :
    L.filter (fun x => !(V.contains x)) = L.filter (fun x => decide (¬x ∈ V)) := by
  apply List.filter_congr
  intro x hx
  rcases hb : V.contains x with _ | _
  · have hm : x ∉ V := by
      intro hmem
      rw [(contains_iff_mem V x).mpr hmem] at hb
      exact Bool.noConfusion hb
    simp [hm]
  · have hm := (contains_iff_mem V x).mp hb
    simp [hm]

theorem filter_length_mono {α : Type} (p q : α → Bool) (h : ∀ x, p x = true → q x = true) :
    ∀ l : List α, (l.filter p).length ≤ (l.filter q).length := by
  intro l
  induction l with
  | nil => simp
  | cons a rest ih =>
    rcases hp : p a with _ | _
    · rcases hq : q a with _ | _
      · simpa [List.filter_cons, hp, hq] using ih
      · simp only [List.filter_cons, hp, hq, if_true, if_false, Bool.false_eq_true,
          List.length_cons]
        omega
    · have hqa := h a hp
      simp only [List.filter_cons, hp, hqa, if_true, List.length_cons]
      omega

theorem unvisited_decrease_decide (L : List Node) (V : Visited) (u : Node)
    (hu : u ∈ L) (hv : u ∉ V) :
    (L.filter (fun x => decide (¬x ∈ (u :: V)))).length <
      (L.filter (fun x => decide (¬x ∈ V))).length := by
  have hmono : ∀ x, decide (¬x ∈ (u :: V)) = true → decide (¬x ∈ V) = true := by
    intro x hx
    rw [decide_eq_true_iff] at hx ⊢
    intro hm
    exact hx (List.mem_cons_of_mem u hm)
  induction L with
  | nil => simp at hu
  | cons a L2 ih =>
    by_cases hau : a = u
    · have h1 : decide (¬a ∈ (u :: V)) = false := by simp [hau]
      have h2 : decide (¬a ∈ V) = true := by
        rw [decide_eq_true_iff]
        rw [hau]
        exact hv
      rw [List.filter_cons, List.filter_cons, h1, h2]
      simp only [Bool.false_eq_true, if_false, if_true, List.length_cons]
      have hle := filter_length_mono _ _ hmono L2
      omega
    · have hu2 : u ∈ L2 := by
        rcases List.mem_cons.mp hu with h | h
        · exact absurd h.symm hau
        · exact h
      by_cases haV : a ∈ V
      · have h1 : decide (¬a ∈ (u :: V)) = false := by
          simp [List.mem_cons, haV]
        have h2 : decide (¬a ∈ V) = false := by simp [haV]
        rw [List.filter_cons, List.filter_cons, h1, h2]
        simp only [Bool.false_eq_true, if_false]
        exact ih hu2
      · have h1 : decide (¬a ∈ (u :: V)) = true := by
          rw [decide_eq_true_iff]
          intro hm
          rcases List.mem_cons.mp hm with h | h
          · exact hau h
          · exact haV h
        have h2 : decide (¬a ∈ V) = true := by simp [haV]
        rw [List.filter_cons, List.filter_cons, h1, h2]
        simp only [if_true, List.length_cons]
        have := ih hu2
        omega

theorem unvisited_decrease (L : List Node) (V : Visited) (u : Node)
    (hu : u ∈ L) (hv : u ∉ V) :
    (L.filter (fun x => !((u :: V).contains x))).length <
      (L.filter (fun x => !(V.contains x))).length := by
  rw [filter_unvisited_eq L (u :: V), filter_unvisited_eq L V]
  exact unvisited_decrease_decide L V u hu hv

theorem relaxFold_keys (u : Node) (cu : Nat) :
    ∀ (edges : AdjMap) (P : DistMap) (O : OriginMap) (x : Node),
      x ∈ keysOf (edges.foldl (relaxEdge u cu) (P, O)).1 →
      x ∈ keysOf P ∨ ∃ w, (x, w) ∈ edges := by
  intro edges
  induction edges with
  | nil =>
    intro P O x hx
    exact Or.inl hx
  | cons e rest ih =>
    intro P O x hx
    rw [List.foldl_cons] at hx
    rcases hf : findEntry P e.1 with _ | old
    · rw [relaxEdge_eq_insert u cu P O e hf] at hx
      rcases ih (setEntry P e.1 (cu + e.2)) (setEntry O e.1 u) x hx with h1 | ⟨w, hw⟩
      · rcases mem_keysOf_setEntry P e.1 x _ h1 with h2 | rfl
        · exact Or.inl h2
        · refine Or.inr ⟨e.2, ?_⟩
          rw [Prod.mk.eta]
          exact List.mem_cons_self _ _
      · exact Or.inr ⟨w, List.mem_cons_of_mem _ hw⟩
    · by_cases hcmp : old > cu + e.2
      · rw [relaxEdge_eq_update u cu P O e old hf hcmp] at hx
        rcases ih (setEntry P e.1 (cu + e.2)) (setEntry O e.1 u) x hx with h1 | ⟨w, hw⟩
        · rcases mem_keysOf_setEntry P e.1 x _ h1 with h2 | rfl
          · exact Or.inl h2
          · refine Or.inr ⟨e.2, ?_⟩
            rw [Prod.mk.eta]
            exact List.mem_cons_self _ _
        · exact Or.inr ⟨w, List.mem_cons_of_mem _ hw⟩
      · rw [relaxEdge_eq_skip u cu P O e old hf hcmp] at hx
        rcases ih P O x hx with h1 | ⟨w, hw⟩
        · exact Or.inl h1
        · exact Or.inr ⟨w, List.mem_cons_of_mem _ hw⟩

/-- The recursion of `dijkstra_progression` cannot exhaust its fuel when the
fuel exceeds the number of unvisited graph nodes: each non-final iteration
marks a previously unvisited node visited, and the tentative-distance map can
only ever mention nodes of the graph. -/
theorem progression_total :
    ∀ (fuel : Nat) (g : Graph) (s d : Node) (P : DistMap) (O : OriginMap) (V : Visited),
      (∀ x ∈ keysOf P, x ∈ allNodes g s) →
      ((allNodes g s).filter (fun x => !(V.contains x))).length < fuel →
      ∃ r, dijkstra_progression fuel g P O V d = some r := by
  intro fuel
  induction fuel with
  | zero =>
    intro g s d P O V hk hlt
    omega
  | succ fuel ih =>
    intro g s d P O V hk hlt
    rcases hsel : get_next_node P V with _ | ⟨u, cu⟩
    · exact ⟨(P, O, V, none), dijkstra_progression_succ_none fuel g P O V d hsel⟩
    · by_cases hud : u = d
      · exact ⟨(P, O, V, some d), dijkstra_progression_succ_dest fuel g P O V d u cu hsel hud⟩
      · rw [dijkstra_progression_succ_step fuel g P O V d u cu hsel hud]
        obtain ⟨hmem, hunv, hmin⟩ := get_next_node_some P V u cu hsel
        apply ih g s d _ _ (u :: V)
        · intro x hx
          rcases relaxFold_keys u cu ((findEntry g u).getD []) P O x hx with h1 | ⟨w, hw⟩
          · exact hk x h1
          · exact mem_adj_allNodes g s u x w hw
        · have hu_all : u ∈ allNodes g s := hk u (List.mem_map.mpr ⟨(u, cu), hmem, rfl⟩)
          have hdec := unvisited_decrease (allNodes g s) V u hu_all hunv
          omega

/-! ## Origin chains and the backtracking walk -/

/-- `chain` lists the nodes found by repeatedly following origin pointers from
a node down to the source (the order in which `dijkstra_backtrack_recursive`
pushes them). -/
inductive OriginChain (O : OriginMap) (s : Node) : Node → List Node → Prop where
  | base : OriginChain O s s [s]
  | step (x y : Node) (rest : List Node) (hx : x ≠ s) (hy : findEntry O x = some y)
      (h : OriginChain O s y rest) : OriginChain O s x (x :: rest)

theorem OriginChain.head_eq (O : OriginMap) (s v : Node) (chain : List Node)
    (h : OriginChain O s v chain) : chain.head? = some v := by
  cases h with
  | base => rfl
  | step x y rest hx hy hsub => rfl

theorem OriginChain.ne_nil (O : OriginMap) (s v : Node) (chain : List Node)
    (h : OriginChain O s v chain) : chain ≠ [] := by
  cases h with
  | base => exact List.cons_ne_nil s []
  | step x y rest hx hy hsub => exact List.cons_ne_nil v rest

theorem OriginChain.last_eq (O : OriginMap) (s : Node) :
    ∀ (v : Node) (chain : List Node), OriginChain O s v chain →
      chain.getLast? = some s := by
  intro v chain h
  induction h with
  | base => rfl
  | step x y rest hx hy hsub ih =>
    rcases rest with _ | ⟨r, rest2⟩
    · exact absurd rfl (OriginChain.ne_nil O s y [] hsub)
    · rw [List.getLast?_cons_cons]
      exact ih

theorem OriginChain.elems (O : OriginMap) (s : Node) :
    ∀ (v : Node) (chain : List Node), OriginChain O s v chain →
      ∀ z ∈ chain, z = s ∨ z ∈ keysOf O := by
  intro v chain h
  induction h with
  | base =>
    intro z hz
    rw [List.mem_singleton] at hz
    exact Or.inl hz
  | step x y rest hx hy hsub ih =>
    intro z hz
    rcases List.mem_cons.mp hz with rfl | hz2
    · exact Or.inr (mem_keysOf_of_findEntry O z y hy)
    · exact ih z hz2

theorem OriginChain.length_le (O : OriginMap) (s v : Node) (chain : List Node)
    (h : OriginChain O s v chain) (hnd : chain.Nodup) :
    chain.length ≤ O.length + 1 := by
  have hsub : chain ⊆ s :: keysOf O := by
    intro z hz
    rcases OriginChain.elems O s v chain h z hz with rfl | h2
    · exact List.mem_cons_self _ _
    · exact List.mem_cons_of_mem _ h2
  have hlen := (List.subperm_of_subset hnd hsub).length_le
  have hkeys : (keysOf O).length = O.length := List.length_map O Prod.fst
  rw [List.length_cons, hkeys] at hlen
  exact hlen

/-! ## Unfolding equations for one backtracking step -/

theorem backtrack_rec_base (fuel : Nat) (O : OriginMap) (s : Node) (acc : List Node) :
    dijkstra_backtrack_recursive (fuel + 1) O s s acc = some (some (acc ++ [s])) := by
  rw [dijkstra_backtrack_recursive]
  simp

theorem backtrack_rec_dead (fuel : Nat) (O : OriginMap) (s loc : Node) (acc : List Node)
    (h1 : loc ≠ s) (h2 : findEntry O loc = none) :
    dijkstra_backtrack_recursive (fuel + 1) O s loc acc = some none := by
  rw [dijkstra_backtrack_recursive, if_neg h1, h2]

theorem backtrack_rec_step (fuel : Nat) (O : OriginMap) (s loc y : Node) (acc : List Node)
    (h1 : loc ≠ s) (h2 : findEntry O loc = some y) :
    dijkstra_backtrack_recursive (fuel + 1) O s loc acc =
      dijkstra_backtrack_recursive fuel O s y (acc ++ [loc]) := by
  rw [dijkstra_backtrack_recursive, if_neg h1, h2]

theorem backtrack_rec_chain (O : OriginMap) (s : Node) :
    ∀ (x : Node) (chain : List Node), OriginChain O s x chain →
      ∀ acc, dijkstra_backtrack_recursive chain.length O s x acc =
        some (some (acc ++ chain)) := by
  intro x chain h
  induction h with
  | base =>
    intro acc
    exact backtrack_rec_base 0 O s acc
  | step x y rest hx hy hsub ih =>
    intro acc
    rw [List.length_cons, backtrack_rec_step rest.length O s x y acc hx hy, ih (acc ++ [x])]
    rw [← List.append_cons]

theorem backtrack_rec_mono :
    ∀ (fuel fuel2 : Nat) (O : OriginMap) (s loc : Node) (acc : List Node)
      (r : Option (List Node)),
      fuel ≤ fuel2 → dijkstra_backtrack_recursive fuel O s loc acc = some r →
      dijkstra_backtrack_recursive fuel2 O s loc acc = some r := by
  intro fuel
  induction fuel with
  | zero =>
    intro fuel2 O s loc acc r hle hrun
    exact Option.noConfusion hrun
  | succ fuel ih =>
    intro fuel2 O s loc acc r hle hrun
    obtain ⟨f2, rfl⟩ : ∃ f2, fuel2 = f2 + 1 := ⟨fuel2 - 1, by omega⟩
    by_cases hls : loc = s
    · subst hls
      rw [backtrack_rec_base fuel O loc acc] at hrun
      rw [backtrack_rec_base f2 O loc acc]
      exact hrun
    · rcases hf : findEntry O loc with _ | y
      · rw [backtrack_rec_dead fuel O s loc acc hls hf] at hrun
        rw [backtrack_rec_dead f2 O s loc acc hls hf]
        exact hrun
      · rw [backtrack_rec_step fuel O s loc y acc hls hf] at hrun
        rw [backtrack_rec_step f2 O s loc y acc hls hf]
        exact ih f2 O s y (acc ++ [loc]) r (by omega) hrun

theorem rankOf_lt_length (V : Visited) (v : Node) (hv : v ∈ V) :
    rankOf V v < V.length := by
  induction V with
  | nil => simp at hv
  | cons y rest ih =>
    by_cases hy : y = v
    · rw [hy, rankOf_cons_self]
      simp
    · rw [rankOf_cons_ne rest y v hy, List.length_cons]
      have hv2 : v ∈ rest := by
        rcases List.mem_cons.mp hv with h | h
        · exact absurd h.symm hy
        · exact h
      have := ih hv2
      omega

/-- From any visited node, the origin pointers walk back to the source along
strictly earlier-visited nodes, producing a duplicate-free chain. -/
theorem chain_exists_visited (g : Graph) (s d : Node) (P : DistMap) (O : OriginMap)
    (V : Visited) (hInv : Inv g s d P O V) :
    ∀ (k : Nat) (v : Node), v ∈ V → V.length - rankOf V v ≤ k →
      ∃ chain, OriginChain O s v chain ∧ chain.Nodup ∧
        (∀ z ∈ chain, z ∈ V) ∧
        (∀ z ∈ chain, z = v ∨ rankOf V v < rankOf V z) := by
  intro k
  induction k with
  | zero =>
    intro v hv hk
    have := rankOf_lt_length V v hv
    omega
  | succ k ih =>
    intro v hv hk
    by_cases hvs : v = s
    · subst hvs
      refine ⟨[v], OriginChain.base, List.nodup_singleton v, ?_, ?_⟩
      · intro z hz
        rw [List.mem_singleton] at hz
        rw [hz]
        exact hv
      · intro z hz
        rw [List.mem_singleton] at hz
        exact Or.inl hz
    · have hvP := hInv.visMem v hv
      have hvO := hInv.originTotal v hvP hvs
      rw [← findEntry_isSome_iff] at hvO
      rcases hy : findEntry O v with _ | y
      · rw [hy] at hvO
        exact Bool.noConfusion hvO
      · obtain ⟨hxs, hyV, hweights, hrank⟩ := hInv.originOK v y hy
        have hr := hrank hv
        have hylt := rankOf_lt_length V y hyV
        obtain ⟨chain, hchain, hnd, hmemV, hrankall⟩ := ih y hyV (by omega)
        refine ⟨v :: chain, OriginChain.step v y chain hvs hy hchain, ?_, ?_, ?_⟩
        · rw [List.nodup_cons]
          refine ⟨?_, hnd⟩
          intro hvc
          rcases hrankall v hvc with h1 | h1
          · rw [h1] at hr
            omega
          · omega
        · intro z hz
          rcases List.mem_cons.mp hz with rfl | hz2
          · exact hv
          · exact hmemV z hz2
        · intro z hz
          rcases List.mem_cons.mp hz with rfl | hz2
          · exact Or.inl rfl
          · right
            rcases hrankall z hz2 with rfl | h1
            · exact hr
            · omega

/-- The cost of the reversed origin chain of a node is exactly its tentative
distance. -/
theorem chain_cost (g : Graph) (s d : Node) (P : DistMap) (O : OriginMap)
    (V : Visited) (hInv : Inv g s d P O V) :
    ∀ (v : Node) (chain : List Node), OriginChain O s v chain →
      ∀ nv, findEntry P v = some nv → pathCost g chain.reverse = some nv := by
  intro v chain h
  induction h with
  | base =>
    intro nv hnv
    rw [hInv.dist0] at hnv
    obtain rfl : (0 : Nat) = nv := Option.some.inj hnv
    simp
  | step x y rest hx hy hsub ih =>
    intro nv hnv
    obtain ⟨hxs, hyV, ⟨w, nx, ny, hew, hnx, hny, heq⟩, hrank⟩ := hInv.originOK x y hy
    obtain rfl : nx = nv := Option.some.inj (hnx.symm.trans hnv)
    have hc := ih ny hny
    have hhead : rest.head? = some y := OriginChain.head_eq O s y rest hsub
    have hlast : rest.reverse.getLast? = some y := by
      rw [List.getLast?_reverse]
      exact hhead
    have happ := pathCost_append_last g rest.reverse y x w ny hlast hc hew
    rw [List.reverse_cons, happ, heq]

theorem dijkstra_backtrack_eq (fuel : Nat) (O : OriginMap) (s dd : Node) (l : List Node)
    (h : dijkstra_backtrack_recursive fuel O s dd [] = some (some l)) :
    dijkstra_backtrack fuel O s dd = some (some l.reverse) := by
  unfold dijkstra_backtrack
  rw [h]

/-- After a successful progression, the backtracking phase (with the fuel used
by `dijkstra`) reconstructs the reversed origin chain of the destination. -/
theorem backtrack_success (g : Graph) (s d : Node) (P : DistMap) (O : OriginMap)
    (V : Visited) (hInv : Inv g s d P O V) (hd : d ∈ keysOf P) :
    ∃ chain, OriginChain O s d chain ∧ chain.Nodup ∧
      dijkstra_backtrack (O.length + 2) O s d = some (some chain.reverse) := by
  by_cases hds : d = s
  · refine ⟨[s], hds ▸ OriginChain.base, List.nodup_singleton s, ?_⟩
    rw [hds]
    exact dijkstra_backtrack_eq (O.length + 2) O s s [s]
      (backtrack_rec_base (O.length + 1) O s [])
  · have hdO := hInv.originTotal d hd hds
    rw [← findEntry_isSome_iff] at hdO
    rcases hy : findEntry O d with _ | u1
    · rw [hy] at hdO
      exact Bool.noConfusion hdO
    · obtain ⟨hds2, hu1V, hw1, hr1⟩ := hInv.originOK d u1 hy
      obtain ⟨chain1, hchain1, hnd1, hmemV1, hrank1⟩ :=
        chain_exists_visited g s d P O V hInv V.length u1 hu1V (by omega)
      have hdchain : OriginChain O s d (d :: chain1) :=
        OriginChain.step d u1 chain1 hds hy hchain1
      have hnd : (d :: chain1).Nodup := by
        rw [List.nodup_cons]
        refine ⟨?_, hnd1⟩
        intro hdc
        exact hInv.dNotVis (hmemV1 d hdc)
      refine ⟨d :: chain1, hdchain, hnd, ?_⟩
      have hlen := OriginChain.length_le O s d (d :: chain1) hdchain hnd
      have hrun := backtrack_rec_chain O s d (d :: chain1) hdchain []
      have hrun2 := backtrack_rec_mono (d :: chain1).length (O.length + 2) O s d []
        (some ([] ++ (d :: chain1))) (by omega) hrun
      exact dijkstra_backtrack_eq (O.length + 2) O s d (d :: chain1) hrun2

/-! ## Unfolding equations for `dijkstra` -/

theorem dijkstra_eq_of_fail (g : Graph) (s d : Node) (P2 : DistMap) (O2 : OriginMap)
    (V2 : Visited)
    (h : dijkstra_progression ((allNodes g s).length + 1) g [(s, 0)] [] [] d =
      some (P2, O2, V2, none)) :
    dijkstra g s d = some none := by
  unfold dijkstra
  rw [h]

theorem dijkstra_eq_of_success (g : Graph) (s d : Node) (P2 : DistMap) (O2 : OriginMap)
    (V2 : Visited) (r : Node)
    (h : dijkstra_progression ((allNodes g s).length + 1) g [(s, 0)] [] [] d =
      some (P2, O2, V2, some r)) :
    dijkstra g s d = dijkstra_backtrack (O2.length + 2) O2 s d := by
  unfold dijkstra
  rw [h]

/-- The filter over an empty visited set keeps every node. -/
theorem filter_empty_visited (L : List Node) :
    L.filter (fun x => !(([] : Visited).contains x)) = L :=
  List.filter_eq_self.mpr (fun a _ => rfl)

/-- The progression phase of `dijkstra` always completes within its fuel. -/
theorem dijkstra_progression_completes (g : Graph) (s d : Node) :
    ∃ r, dijkstra_progression ((allNodes g s).length + 1) g [(s, 0)] [] [] d = some r := by
  apply progression_total ((allNodes g s).length + 1) g s d [(s, 0)] [] []
  · intro x hx
    rw [keysOf_cons] at hx
    rcases List.mem_cons.mp hx with rfl | h
    · exact source_mem_allNodes g x
    · simp at h
  · rw [filter_empty_visited]
    omega

/-- Full success specification of `dijkstra`: a returned path starts at the
source, ends at the destination, repeats no node, and its total weight is
minimal among all paths between the two endpoints. -/
theorem dijkstra_success_spec (g : Graph) (s d : Node) (p : List Node) (hwf : WFGraph g)
    (h : dijkstra g s d = some (some p)) :
    List.head? p = some s ∧ List.getLast? p = some d ∧ p.Nodup ∧
    ∃ c, pathCost g p = some c ∧
      ∀ q cq, List.head? q = some s → List.getLast? q = some d →
        pathCost g q = some cq → c ≤ cq := by
  obtain ⟨⟨P2, O2, V2, res⟩, hrun⟩ := dijkstra_progression_completes g s d
  obtain ⟨hI, hsub, hnone, hsome⟩ := progression_master ((allNodes g s).length + 1)
    g s d [(s, 0)] [] [] P2 O2 V2 res hwf (Inv_init g s d) hrun
  rcases res with _ | r
  · rw [dijkstra_eq_of_fail g s d P2 O2 V2 hrun] at h
    obtain h2 := Option.some.inj h
    exact Option.noConfusion h2
  · obtain ⟨hrd, cd, hseld⟩ := hsome r rfl
    obtain rfl : d = r := hrd.symm
    obtain ⟨hdmem, hdunv, hdmin⟩ := get_next_node_some P2 V2 d cd hseld
    have hdP : findEntry P2 d = some cd := findEntry_of_mem P2 d cd hI.ndP hdmem
    have hdkeys : d ∈ keysOf P2 := mem_keysOf_of_findEntry P2 d cd hdP
    obtain ⟨chain, hchain, hnd, hbt⟩ := backtrack_success g s d P2 O2 V2 hI hdkeys
    rw [dijkstra_eq_of_success g s d P2 O2 V2 d hrun, hbt] at h
    obtain rfl : chain.reverse = p := Option.some.inj (Option.some.inj h)
    refine ⟨?_, ?_, ?_, cd, ?_, ?_⟩
    · rw [List.head?_reverse]
      exact OriginChain.last_eq O2 s d chain hchain
    · rw [List.getLast?_reverse]
      exact OriginChain.head_eq O2 s d chain hchain
    · exact List.nodup_reverse.mpr hnd
    · exact chain_cost g s d P2 O2 V2 hI d chain hchain cd hdP
    · intro q cq hqh hql hqc
      exact selection_min g s d P2 O2 V2 d cd hI hseld q cq hqh hql hqc

/-- Without any invariant assumption: a completed progression run only grows
the visited set, and it reports failure only when `get_next_node` finds no
unvisited reached node in the final state. -/
theorem progression_evolution :
    ∀ (fuel : Nat) (g : Graph) (P : DistMap) (O : OriginMap) (V : Visited) (d : Node)
      (P2 : DistMap) (O2 : OriginMap) (V2 : Visited) (res : Option Node),
      dijkstra_progression fuel g P O V d = some (P2, O2, V2, res) →
      (∀ x ∈ V, x ∈ V2) ∧ (res = none → get_next_node P2 V2 = none) := by
  intro fuel
  induction fuel with
  | zero =>
    intro g P O V d P2 O2 V2 res hrun
    exact Option.noConfusion hrun
  | succ fuel ih =>
    intro g P O V d P2 O2 V2 res hrun
    rcases hsel : get_next_node P V with _ | ⟨u, cu⟩
    · rw [dijkstra_progression_succ_none fuel g P O V d hsel] at hrun
      cases hrun
      exact ⟨fun x hx => hx, fun _ => hsel⟩
    · by_cases hud : u = d
      · rw [dijkstra_progression_succ_dest fuel g P O V d u cu hsel hud] at hrun
        cases hrun
        exact ⟨fun x hx => hx, fun h => Option.noConfusion h⟩
      · rw [dijkstra_progression_succ_step fuel g P O V d u cu hsel hud] at hrun
        obtain ⟨hsub, hnone⟩ := ih g _ _ (u :: V) d P2 O2 V2 res hrun
        exact ⟨fun x hx => hsub x (List.mem_cons_of_mem u hx), hnone⟩

/-- A sequence with a defined cost is linked by existing edges at every
consecutive pair. -/
theorem pathCost_chain (g : Graph) :
    ∀ (p : List Node) (c : Nat), pathCost g p = some c →
      List.Chain' (fun a b => (edgeWeight g a b).isSome = true) p := by
  intro p
  induction p with
  | nil =>
    intro c h
    simp
  | cons a rest ih =>
    cases rest with
    | nil =>
      intro c h
      simp
    | cons b rest2 =>
      intro c h
      obtain ⟨w, c2, he, hc2, rfl⟩ := pathCost_cons_elim g a b rest2 c h
      rw [List.chain'_cons]
      constructor
      · rw [he]
        rfl
      · exact ih c2 hc2

/-- When no path joins the source to the destination, `dijkstra` completes
and returns the not-found value. -/
theorem dijkstra_unreachable (g : Graph) (s d : Node) (hwf : WFGraph g)
    (hnp : ∀ q, ¬IsPathFrom g s d q) : dijkstra g s d = some none := by
  obtain ⟨⟨P2, O2, V2, res⟩, hrun⟩ := dijkstra_progression_completes g s d
  rcases res with _ | r
  · exact dijkstra_eq_of_fail g s d P2 O2 V2 hrun
  · exfalso
    obtain ⟨hI, hsub, hnone, hsome⟩ := progression_master ((allNodes g s).length + 1)
      g s d [(s, 0)] [] [] P2 O2 V2 (some r) hwf (Inv_init g s d) hrun
    obtain ⟨hrd, cd, hseld⟩ := hsome r rfl
    obtain rfl : d = r := hrd.symm
    obtain ⟨hdmem, hdunv, hdmin⟩ := get_next_node_some P2 V2 d cd hseld
    have hdP : findEntry P2 d = some cd := findEntry_of_mem P2 d cd hI.ndP hdmem
    have hdkeys : d ∈ keysOf P2 := mem_keysOf_of_findEntry P2 d cd hdP
    obtain ⟨chain, hchain, hnd, hbt⟩ := backtrack_success g s d P2 O2 V2 hI hdkeys
    have hcost := chain_cost g s d P2 O2 V2 hI d chain hchain cd hdP
    apply hnp chain.reverse
    refine ⟨?_, ?_, ?_⟩
    · rw [List.head?_reverse]
      exact OriginChain.last_eq O2 s d chain hchain
    · rw [List.getLast?_reverse]
      exact OriginChain.head_eq O2 s d chain hchain
    · rw [hcost]
      rfl

/-! ## Example graphs used by the witnesses -/

/-- The cycle graph from the repository's `main` and the spec's test scenario:
A→B→C→D→A, all edges of weight 1. -/
def exampleGraph : Graph :=
  [("A", [("B", 1)]), ("B", [("C", 1)]), ("C", [("D", 1)]), ("D", [("A", 1)])]

/-- The weighted-tie graph of the spec: A→B (5), A→C (1), C→B (1). -/
def tieGraph : Graph := [("A", [("B", 5), ("C", 1)]), ("C", [("B", 1)])]

/-! ## The claims -/

/-- C1: for every graph with non-negative edge weights (weights are `u32`,
hence `Nat`, so non-negativity is intrinsic) and every source and destination,
if `dijkstra` returns a path then the sum of the weights of its edges equals
the true shortest-path distance: the path's total weight is defined, and it
is a lower bound of the total weight of every path from the source to the
destination (it is itself such a path, so it attains the minimum). -/
theorem claim_C1 (g : Graph) (s d : Node) (p : List Node) (hwf : WFGraph g)
    (h : dijkstra g s d = some (some p)) :
    ∃ c, pathCost g p = some c ∧ List.head? p = some s ∧ List.getLast? p = some d ∧
      ∀ q cq, List.head? q = some s → List.getLast? q = some d →
        pathCost g q = some cq → c ≤ cq := by
  obtain ⟨hh, hl, hnd, c, hc, hmin⟩ := dijkstra_success_spec g s d p hwf h
  exact ⟨c, hc, hh, hl, hmin⟩

/-- C2: if `dijkstra` returns a path, the sequence starts with the source,
ends with the destination, and every consecutive pair of nodes is connected
by an edge present in the graph's adjacency mapping. -/
theorem claim_C2 (g : Graph) (s d : Node) (p : List Node) (hwf : WFGraph g)
    (h : dijkstra g s d = some (some p)) :
    List.head? p = some s ∧ List.getLast? p = some d ∧
      List.Chain' (fun a b => (edgeWeight g a b).isSome = true) p := by
  obtain ⟨hh, hl, hnd, c, hc, hmin⟩ := dijkstra_success_spec g s d p hwf h
  exact ⟨hh, hl, pathCost_chain g p c hc⟩

/-- C3: when no path joins the source to the destination, `dijkstra` returns
the distinguished not-found value `some none` (the model always completes —
second conjunct — so there is no abort); and inside the progression engine
the only way a run terminates without success is `get_next_node` returning
the absence signal on the final state. -/
theorem claim_C3 (g : Graph) (s d : Node) (hwf : WFGraph g) :
    ((∀ q, ¬IsPathFrom g s d q) → dijkstra g s d = some none) ∧
    (∃ r, dijkstra g s d = some r) ∧
    (∀ (fuel : Nat) (P : DistMap) (O : OriginMap) (V : Visited)
      (P2 : DistMap) (O2 : OriginMap) (V2 : Visited) (res : Option Node),
      dijkstra_progression fuel g P O V d = some (P2, O2, V2, res) →
      res = none → get_next_node P2 V2 = none) := by
  refine ⟨dijkstra_unreachable g s d hwf, ?_, ?_⟩
  · obtain ⟨⟨P2, O2, V2, res⟩, hrun⟩ := dijkstra_progression_completes g s d
    rcases res with _ | r
    · exact ⟨none, dijkstra_eq_of_fail g s d P2 O2 V2 hrun⟩
    · obtain ⟨hI, hsub, hnone, hsome⟩ := progression_master ((allNodes g s).length + 1)
        g s d [(s, 0)] [] [] P2 O2 V2 (some r) hwf (Inv_init g s d) hrun
      obtain ⟨hrd, cd, hseld⟩ := hsome r rfl
      obtain rfl : d = r := hrd.symm
      obtain ⟨hdmem, hdunv, hdmin⟩ := get_next_node_some P2 V2 d cd hseld
      have hdP : findEntry P2 d = some cd := findEntry_of_mem P2 d cd hI.ndP hdmem
      have hdkeys : d ∈ keysOf P2 := mem_keysOf_of_findEntry P2 d cd hdP
      obtain ⟨chain, hchain, hnd, hbt⟩ := backtrack_success g s d P2 O2 V2 hI hdkeys
      refine ⟨some chain.reverse, ?_⟩
      rw [dijkstra_eq_of_success g s d P2 O2 V2 d hrun]
      exact hbt
  · intro fuel P O V P2 O2 V2 res hrun hres
    subst hres
    exact (progression_evolution fuel g P O V d P2 O2 V2 none hrun).2 rfl

/-- C5: the progression loop terminates on every finite graph: the fuel
`|allNodes| + 1` used by `dijkstra` always suffices (first conjunct), a
completed run only ever grows the visited set (second conjunct), and each
iteration's selected node is previously unvisited (third conjunct). -/
theorem claim_C5 (g : Graph) (s d : Node) :
    (∃ r, dijkstra_progression ((allNodes g s).length + 1) g [(s, 0)] [] [] d = some r) ∧
    (∀ (fuel : Nat) (P : DistMap) (O : OriginMap) (V : Visited)
      (P2 : DistMap) (O2 : OriginMap) (V2 : Visited) (res : Option Node),
      dijkstra_progression fuel g P O V d = some (P2, O2, V2, res) → ∀ x ∈ V, x ∈ V2) ∧
    (∀ (P : DistMap) (V : Visited) (u : Node) (cu : Nat),
      get_next_node P V = some (u, cu) → u ∉ V) := by
  refine ⟨dijkstra_progression_completes g s d, ?_, ?_⟩
  · intro fuel P O V P2 O2 V2 res hrun
    exact (progression_evolution fuel g P O V d P2 O2 V2 res hrun).1
  · intro P V u cu hsel
    exact (get_next_node_some P V u cu hsel).2.1

/-- C6: for every graph and node `X`, `dijkstra g X X` returns the
single-element path `[X]`, regardless of the graph's contents. -/
theorem claim_C6 (g : Graph) (X : Node) : dijkstra g X X = some (some [X]) := by
  have h1 : get_next_node [(X, 0)] [] = some (X, 0) := rfl
  have hrun : dijkstra_progression ((allNodes g X).length + 1) g [(X, 0)] [] [] X =
      some ([(X, 0)], [], [], some X) :=
    dijkstra_progression_succ_dest ((allNodes g X).length) g [(X, 0)] [] [] X X 0 h1 rfl
  rw [dijkstra_eq_of_success g X X [(X, 0)] [] [] X hrun]
  exact dijkstra_backtrack_eq 2 [] X X [X] (backtrack_rec_base 1 [] X [])

/-- C7: relaxation of one outgoing edge `(x, w)` of the selected node `n`
(whose tentative distance is `cur`): a neighbor with no tentative distance
gets distance `cur + w` and origin `n`; a neighbor whose distance strictly
exceeds `cur + w` gets both overwritten; otherwise nothing changes. -/
theorem claim_C7 (n : Node) (cur : Nat) (P : DistMap) (O : OriginMap) (x : Node) (w : Nat) :
    (findEntry P x = none →
      findEntry (relaxEdge n cur (P, O) (x, w)).1 x = some (cur + w) ∧
      findEntry (relaxEdge n cur (P, O) (x, w)).2 x = some n) ∧
    (∀ old, findEntry P x = some old → old > cur + w →
      findEntry (relaxEdge n cur (P, O) (x, w)).1 x = some (cur + w) ∧
      findEntry (relaxEdge n cur (P, O) (x, w)).2 x = some n) ∧
    (∀ old, findEntry P x = some old → old ≤ cur + w →
      relaxEdge n cur (P, O) (x, w) = (P, O)) := by
  refine ⟨?_, ?_, ?_⟩
  · intro hnone
    rw [relaxEdge_eq_insert n cur P O (x, w) hnone]
    exact ⟨findEntry_setEntry_self P x (cur + w), findEntry_setEntry_self O x n⟩
  · intro old hold hgt
    rw [relaxEdge_eq_update n cur P O (x, w) old hold hgt]
    exact ⟨findEntry_setEntry_self P x (cur + w), findEntry_setEntry_self O x n⟩
  · intro old hold hle
    exact relaxEdge_eq_skip n cur P O (x, w) old hold (by omega)

/-- C8: a node absent from the graph's key set has zero outgoing edges, so
expanding it relaxes nothing (first conjunct); and a source that is absent
from the graph or has an empty adjacency map makes `dijkstra` return the
not-found value whenever the source differs from the destination. -/
theorem claim_C8 (g : Graph) (s d x : Node)
    (hx : findEntry g x = none)
    (hs : findEntry g s = none ∨ findEntry g s = some [])
    (hsd : s ≠ d) :
    (∀ (u : Node) (cu : Nat) (P : DistMap) (O : OriginMap),
      relaxAll ((findEntry g x).getD []) u cu P O = (P, O)) ∧
    dijkstra g s d = some none := by
  constructor
  · intro u cu P O
    rw [hx]
    rfl
  · have h1 : get_next_node [(s, 0)] [] = some (s, 0) := rfl
    have hadj : (findEntry g s).getD [] = [] := by
      rcases hs with h | h <;> rw [h] <;> rfl
    have h2 : get_next_node [(s, 0)] [s] = none := by
      apply (get_next_node_none_iff [(s, 0)] [s]).mpr
      intro kv hkv
      rw [List.mem_singleton] at hkv
      rw [hkv]
      exact List.mem_singleton.mpr rfl
    obtain ⟨k, hk⟩ : ∃ k, (allNodes g s).length = k + 1 := ⟨_, rfl⟩
    have hrun : dijkstra_progression ((allNodes g s).length + 1) g [(s, 0)] [] [] d =
        some ([(s, 0)], [], [s], none) := by
      rw [dijkstra_progression_succ_step ((allNodes g s).length) g [(s, 0)] [] [] d s 0
        h1 hsd]
      rw [hadj, hk]
      exact dijkstra_progression_succ_none k g [(s, 0)] [] [s] d h2
    exact dijkstra_eq_of_fail g s d [(s, 0)] [] [s] hrun

/-- C9: the source never acquires an origin entry: in the final state of any
completed progression run started from `dijkstra`'s initial state the origin
map has no entry for the source and the source keeps distance 0; moreover a
single relaxation pass can never insert or overwrite an origin entry for the
source, because the source's distance 0 admits no strict improvement. -/
theorem claim_C9 (g : Graph) (s d : Node) (fuel : Nat) (P2 : DistMap) (O2 : OriginMap)
    (V2 : Visited) (res : Option Node) (hwf : WFGraph g)
    (hrun : dijkstra_progression fuel g [(s, 0)] [] [] d = some (P2, O2, V2, res)) :
    findEntry O2 s = none ∧ findEntry P2 s = some 0 ∧
    (∀ (adj : AdjMap) (u : Node) (cu : Nat) (P : DistMap) (O : OriginMap),
      (keysOf P).Nodup → (keysOf O).Nodup → findEntry P u = some cu →
      findEntry P s = some 0 → findEntry O s = none →
      findEntry (relaxAll adj u cu P O).2 s = none) := by
  obtain ⟨hI, hsub, hnone, hsome⟩ := progression_master fuel g s d [(s, 0)] [] []
    P2 O2 V2 res hwf (Inv_init g s d) hrun
  refine ⟨?_, hI.dist0, ?_⟩
  · rcases hf : findEntry O2 s with _ | y
    · rfl
    · exact absurd rfl (hI.originOK s y hf).1
  · intro adj u cu P O hP hO hu hs0 hOs
    have spec := relaxAll_spec adj u cu P O hP hO hu
    rcases spec.change s with ⟨hQs, hRs⟩ | ⟨hsu, hRs, w, hw, hQs, hcond⟩
    · rw [hRs]
      exact hOs
    · exfalso
      have h2 := hcond 0 hs0
      omega

/-- C10: every path returned by `dijkstra` is simple — no node identifier
occurs more than once in the sequence. -/
theorem claim_C10 (g : Graph) (s d : Node) (p : List Node) (hwf : WFGraph g)
    (h : dijkstra g s d = some (some p)) : p.Nodup :=
  (dijkstra_success_spec g s d p hwf h).2.2.1

theorem dijkstra_backtrack_eq_none (fuel : Nat) (O : OriginMap) (s dd : Node)
    (h : dijkstra_backtrack_recursive fuel O s dd [] = none) :
    dijkstra_backtrack fuel O s dd = none := by
  unfold dijkstra_backtrack
  rw [h]

theorem backtrack_cycle_diverges :
    ∀ (fuel : Nat) (loc : Node) (acc : List Node), loc = "A" ∨ loc = "B" →
      dijkstra_backtrack_recursive fuel [("A", "B"), ("B", "A")] "S" loc acc = none := by
  intro fuel
  induction fuel with
  | zero =>
    intro loc acc h
    rfl
  | succ fuel ih =>
    intro loc acc h
    rcases h with rfl | rfl
    · rw [backtrack_rec_step fuel [("A", "B"), ("B", "A")] "S" "A" "B" acc
        (by decide) (by decide)]
      exact ih "B" (acc ++ ["A"]) (Or.inr rfl)
    · rw [backtrack_rec_step fuel [("A", "B"), ("B", "A")] "S" "B" "A" acc
        (by decide) (by decide)]
      exact ih "A" (acc ++ ["B"]) (Or.inl rfl)

/-- C4: the path reconstructor is NOT input-safe on arbitrary origin maps.
On the cyclic origin map A↦B, B↦A with source S and destination A, the
backtracking recursion of the source never reaches its base case: for every
fuel the fueled embedding still reports fuel exhaustion, i.e. the source's
`dijkstra_backtrack_recursive` diverges (alternating between A and B forever)
instead of terminating with a path or the absence signal. -/
theorem claim_C4 : ∀ fuel : Nat,
    dijkstra_backtrack_recursive fuel [("A", "B"), ("B", "A")] "S" "A" [] = none ∧
    dijkstra_backtrack fuel [("A", "B"), ("B", "A")] "S" "A" = none := by
  intro fuel
  have h := backtrack_cycle_diverges fuel "A" [] (Or.inl rfl)
  exact ⟨h, dijkstra_backtrack_eq_none fuel [("A", "B"), ("B", "A")] "S" "A" h⟩

/-! ## Witnesses: the claim theorems applied at concrete inputs -/

theorem claim_C1_witness :
    WFGraph exampleGraph ∧
    dijkstra exampleGraph "A" "D" = some (some ["A", "B", "C", "D"]) ∧
    (∃ c, pathCost exampleGraph ["A", "B", "C", "D"] = some c ∧
      List.head? ["A", "B", "C", "D"] = some "A" ∧
      List.getLast? ["A", "B", "C", "D"] = some "D" ∧
      ∀ q cq, List.head? q = some "A" → List.getLast? q = some "D" →
        pathCost exampleGraph q = some cq → c ≤ cq) :=
  ⟨by decide, by decide,
    claim_C1 exampleGraph "A" "D" ["A", "B", "C", "D"] (by decide) (by decide)⟩

theorem claim_C2_witness :
    WFGraph tieGraph ∧
    dijkstra tieGraph "A" "B" = some (some ["A", "C", "B"]) ∧
    (List.head? ["A", "C", "B"] = some "A" ∧ List.getLast? ["A", "C", "B"] = some "B" ∧
      List.Chain' (fun a b => (edgeWeight tieGraph a b).isSome = true) ["A", "C", "B"]) :=
  ⟨by decide, by decide, claim_C2 tieGraph "A" "B" ["A", "C", "B"] (by decide) (by decide)⟩

theorem claim_C3_witness :
    WFGraph ([] : Graph) ∧
    (((∀ q, ¬IsPathFrom [] "A" "B" q) → dijkstra [] "A" "B" = some none) ∧
      (∃ r, dijkstra [] "A" "B" = some r) ∧
      (∀ (fuel : Nat) (P : DistMap) (O : OriginMap) (V : Visited)
        (P2 : DistMap) (O2 : OriginMap) (V2 : Visited) (res : Option Node),
        dijkstra_progression fuel [] P O V "B" = some (P2, O2, V2, res) →
        res = none → get_next_node P2 V2 = none)) :=
  ⟨by decide, claim_C3 [] "A" "B" (by decide)⟩

theorem claim_C5_witness :
    (∃ r, dijkstra_progression ((allNodes exampleGraph "A").length + 1) exampleGraph
      [("A", 0)] [] [] "D" = some r) ∧
    (∀ (fuel : Nat) (P : DistMap) (O : OriginMap) (V : Visited)
      (P2 : DistMap) (O2 : OriginMap) (V2 : Visited) (res : Option Node),
      dijkstra_progression fuel exampleGraph P O V "D" = some (P2, O2, V2, res) →
      ∀ x ∈ V, x ∈ V2) ∧
    (∀ (P : DistMap) (V : Visited) (u : Node) (cu : Nat),
      get_next_node P V = some (u, cu) → u ∉ V) :=
  claim_C5 exampleGraph "A" "D"

theorem claim_C7_witness :
    findEntry [("B", 5)] "B" = some 5 ∧ 5 > 1 + 2 ∧
    (findEntry (relaxEdge "A" 1 ([("B", 5)], []) ("B", 2)).1 "B" = some (1 + 2) ∧
      findEntry (relaxEdge "A" 1 ([("B", 5)], []) ("B", 2)).2 "B" = some "A") :=
  ⟨rfl, by decide, (claim_C7 "A" 1 [("B", 5)] [] "B" 2).2.1 5 rfl (by decide)⟩

theorem claim_C8_witness :
    findEntry ([] : Graph) "C" = none ∧
    (findEntry ([] : Graph) "A" = none ∨ findEntry ([] : Graph) "A" = some []) ∧
    ("A" : Node) ≠ "B" ∧
    ((∀ (u : Node) (cu : Nat) (P : DistMap) (O : OriginMap),
      relaxAll ((findEntry ([] : Graph) "C").getD []) u cu P O = (P, O)) ∧
      dijkstra [] "A" "B" = some none) :=
  ⟨rfl, Or.inl rfl, by decide, claim_C8 [] "A" "B" "C" rfl (Or.inl rfl) (by decide)⟩

theorem claim_C9_witness :
    WFGraph exampleGraph ∧
    dijkstra_progression 10 exampleGraph [("A", 0)] [] [] "D" =
      some ([("A", 0), ("B", 1), ("C", 2), ("D", 3)],
        [("B", "A"), ("C", "B"), ("D", "C")], ["C", "B", "A"], some "D") ∧
    (findEntry [("B", "A"), ("C", "B"), ("D", "C")] "A" = none ∧
      findEntry [("A", 0), ("B", 1), ("C", 2), ("D", 3)] "A" = some 0 ∧
      (∀ (adj : AdjMap) (u : Node) (cu : Nat) (P : DistMap) (O : OriginMap),
        (keysOf P).Nodup → (keysOf O).Nodup → findEntry P u = some cu →
        findEntry P "A" = some 0 → findEntry O "A" = none →
        findEntry (relaxAll adj u cu P O).2 "A" = none)) :=
  ⟨by decide, by decide,
    claim_C9 exampleGraph "A" "D" 10 [("A", 0), ("B", 1), ("C", 2), ("D", 3)]
      [("B", "A"), ("C", "B"), ("D", "C")] ["C", "B", "A"] (some "D")
      (by decide) (by decide)⟩

theorem claim_C10_witness :
    WFGraph tieGraph ∧
    dijkstra tieGraph "A" "B" = some (some ["A", "C", "B"]) ∧
    (["A", "C", "B"] : List Node).Nodup :=
  ⟨by decide, by decide, claim_C10 tieGraph "A" "B" ["A", "C", "B"] (by decide) (by decide)⟩

end DijkstraRust
